import Mathlib

/-!
Verification development for the `dumbcli` command-bookmarking tool
(source: the yargs-based CLI, v1.3.0).  The JavaScript source is shallowly
embedded: command records become a Lean structure, the helper functions
(`findCommandByIdOrAlias`, `isAliasUnique`, the placeholder substitution in
`handleRunCommand`, `readCommands`, `writeCommands`) become executable Lean
functions, and the mutating subcommands become pure state transformers with a
step relation over the persisted state.  JavaScript strings are modeled as
Lean `String`, JS numbers carrying record ids as `Int`, and the falsy
sentinel `false` used for an absent alias/comment as `Option.none`.
-/

/-- A stored command record, as persisted in `dumbcli.json`.
JS shape: `{ id: number, alias: string|false, command: string,
comment: string|false }`; `false` is modeled as `none`. -/
structure Cmd where
  id : Int
  «alias» : Option String
  command : String
  comment : Option String
deriving Repr, DecidableEq

/-- JS `String.prototype.toLowerCase`, modeled character-wise over the
string's character list (ASCII case mapping). -/
def jsToLower (s : String) : String :=
  String.mk (s.data.map Char.toLower)

/-- JS `String.prototype.trim`: drop leading and trailing whitespace,
modeled over the character list. -/
def jsTrim (s : String) : String :=
  String.mk
    (((s.data.dropWhile Char.isWhitespace).reverse.dropWhile
        Char.isWhitespace).reverse)

/-- Numeric value of a run of decimal digit characters. -/
def digitsVal (ds : List Char) : Nat :=
  ds.foldl (fun acc c => acc * 10 + (c.toNat - 48)) 0

/-- Longest leading run of decimal digits, `none` when there is none
(the tail of JS `parseInt` after sign handling). -/
def parseDigits (cs : List Char) : Option Nat :=
  let ds := cs.takeWhile (fun c => c.isDigit)
  if ds.isEmpty then none else some (digitsVal ds)

/-- JS `parseInt(s, 10)`: skip leading whitespace, an optional sign, then
read the longest decimal-digit prefix; `NaN` (here `none`) when no digit
follows.  Trailing non-digit text is ignored, so `parseInt("7abc") = 7`. -/
def jsParseInt (s : String) : Option Int :=
  let cs := s.data.dropWhile (fun c => c.isWhitespace)
  match cs with
  | [] => none
  | c :: rest =>
    if c = '-' then (parseDigits rest).map (fun n => -(n : Int))
    else if c = '+' then (parseDigits rest).map (fun n => (n : Int))
    else (parseDigits cs).map (fun n => (n : Int))

/-- The id test applied at each scanned record:
`!isNaN(idSearch) && cmd.id === idSearch`. -/
def matchesId (idSearch : Option Int) (cmd : Cmd) : Bool :=
  match idSearch with
  | some k => cmd.id == k
  | none => false

/-- The alias test applied at each scanned record:
`cmd.alias && cmd.alias.toLowerCase() === searchLower`
(a `false` or empty alias is falsy and never matches). -/
def matchesAlias (searchLower : String) (cmd : Cmd) : Bool :=
  match cmd.«alias» with
  | some s => s != "" && jsToLower s == searchLower
  | none => false

/-- The scan loop of `findCommandByIdOrAlias`: walk the records in stored
order, at each element checking the id first and then the alias, returning
the first element that passes either test together with its index. -/
def findAux (searchLower : String) (idSearch : Option Int) :
    List Cmd → Nat → Option (Cmd × Nat)
  | [], _ => none
  | cmd :: rest, i =>
    if matchesId idSearch cmd then some (cmd, i)
    else if matchesAlias searchLower cmd then some (cmd, i)
    else findAux searchLower idSearch rest (i + 1)

/-- `findCommandByIdOrAlias(specifier, commands)`:
`searchLower = String(specifier).toLowerCase()`,
`idSearch = parseInt(specifier, 10)`, then the single left-to-right scan. -/
def findCommandByIdOrAlias (specifier : String) (commands : List Cmd) :
    Option (Cmd × Nat) :=
  findAux (jsToLower specifier) (jsParseInt specifier) commands 0

/-- A record matches a specifier when either per-element test fires. -/
def specMatches (specifier : String) (cmd : Cmd) : Bool :=
  matchesId (jsParseInt specifier) cmd || matchesAlias (jsToLower specifier) cmd

/-- `isAliasUnique(alias, commands, excludeId)`: an empty (falsy) alias is
always unique; otherwise no record other than the `excludeId` one may carry
the same alias case-insensitively. -/
def isAliasUnique (a : String) (commands : List Cmd)
    (excludeId : Option Int) : Bool :=
  if a = "" then true
  else !(commands.any fun cmd =>
    (match cmd.«alias» with
     | some s => s != "" && jsToLower s == jsToLower a
     | none => false) && (some cmd.id != excludeId))

/- ### Lemmas about the scan -/

theorem findAux_cons_id (searchLower : String) (idSearch : Option Int)
    (d : Cmd) (rest : List Cmd) (i : Nat)
    (h : matchesId idSearch d = true) :
    findAux searchLower idSearch (d :: rest) i = some (d, i) := by
  simp [findAux, h]

theorem findAux_cons_alias (searchLower : String) (idSearch : Option Int)
    (d : Cmd) (rest : List Cmd) (i : Nat)
    (h1 : matchesId idSearch d = false) (h2 : matchesAlias searchLower d = true) :
    findAux searchLower idSearch (d :: rest) i = some (d, i) := by
  simp [findAux, h1, h2]

theorem findAux_cons_skip (searchLower : String) (idSearch : Option Int)
    (d : Cmd) (rest : List Cmd) (i : Nat)
    (h1 : matchesId idSearch d = false) (h2 : matchesAlias searchLower d = false) :
    findAux searchLower idSearch (d :: rest) i =
      findAux searchLower idSearch rest (i + 1) := by
  simp [findAux, h1, h2]

theorem findAux_eq_none (searchLower : String) (idSearch : Option Int)
    (cmds : List Cmd) (i : Nat)
    (h : ∀ c ∈ cmds, (matchesId idSearch c || matchesAlias searchLower c) = false) :
    findAux searchLower idSearch cmds i = none := by
  induction cmds generalizing i with
  | nil => rfl
  | cons c rest ih =>
    have hc := h c (List.mem_cons_self c rest)
    have h1 : matchesId idSearch c = false := by
      cases hid : matchesId idSearch c <;> simp [hid] at hc ⊢
    have h2 : matchesAlias searchLower c = false := by
      cases hal : matchesAlias searchLower c <;> simp [hal] at hc ⊢
    simp only [findAux, h1, h2, if_false, Bool.false_eq_true]
    exact ih (i + 1) (fun d hd => h d (List.mem_cons_of_mem c hd))

theorem findAux_first (searchLower : String) (idSearch : Option Int)
    (cmds : List Cmd) (j i : Nat) (hj : j < cmds.length)
    (hmatch : (matchesId idSearch (cmds.get ⟨j, hj⟩) ||
               matchesAlias searchLower (cmds.get ⟨j, hj⟩)) = true)
    (hfirst : ∀ j' (hj' : j' < cmds.length), j' < j →
      (matchesId idSearch (cmds.get ⟨j', hj'⟩) ||
       matchesAlias searchLower (cmds.get ⟨j', hj'⟩)) = false) :
    findAux searchLower idSearch cmds i = some (cmds.get ⟨j, hj⟩, i + j) := by
  induction cmds generalizing j i with
  | nil => exact absurd hj (Nat.not_lt_zero j)
  | cons c rest ih =>
    cases j with
    | zero =>
      simp only [List.get] at hmatch ⊢
      have hm : matchesId idSearch c = true ∨ matchesAlias searchLower c = true := by
        simpa using hmatch
      rcases hm with hid | hal
      · simp [findAux, hid]
      · by_cases hid : matchesId idSearch c = true
        · simp [findAux, hid]
        · simp [findAux, hid, hal]
    | succ j0 =>
      have h0 : (matchesId idSearch c || matchesAlias searchLower c) = false :=
        hfirst 0 (Nat.zero_lt_succ _) (Nat.zero_lt_succ j0)
      have h1 : matchesId idSearch c = false := by
        cases hid : matchesId idSearch c <;> simp [hid] at h0 ⊢
      have h2 : matchesAlias searchLower c = false := by
        cases hal : matchesAlias searchLower c <;> simp [hal] at h0 ⊢
      have hj0 : j0 < rest.length := Nat.lt_of_succ_lt_succ hj
      have hrec := ih j0 (i + 1) hj0 hmatch
        (fun j' hj' hlt => hfirst (j' + 1) (Nat.succ_lt_succ hj')
          (Nat.succ_lt_succ hlt))
      simp only [findAux, h1, h2, if_false, Bool.false_eq_true]
      rw [hrec]
      have harith : i + 1 + j0 = i + (j0 + 1) := by omega
      simp [harith]

theorem findAux_mem (searchLower : String) (idSearch : Option Int)
    (cmds : List Cmd) (i : Nat) (c : Cmd) (j : Nat)
    (h : findAux searchLower idSearch cmds i = some (c, j)) : c ∈ cmds := by
  induction cmds generalizing i with
  | nil => simp [findAux] at h
  | cons d rest ih =>
    by_cases h1 : matchesId idSearch d = true
    · rw [findAux_cons_id searchLower idSearch d rest i h1] at h
      simp only [Option.some.injEq, Prod.mk.injEq] at h
      rw [← h.1]
      exact List.mem_cons_self d rest
    · rw [Bool.not_eq_true] at h1
      by_cases h2 : matchesAlias searchLower d = true
      · rw [findAux_cons_alias searchLower idSearch d rest i h1 h2] at h
        simp only [Option.some.injEq, Prod.mk.injEq] at h
        rw [← h.1]
        exact List.mem_cons_self d rest
      · rw [Bool.not_eq_true] at h2
        rw [findAux_cons_skip searchLower idSearch d rest i h1 h2] at h
        exact List.mem_cons_of_mem d (ih (i + 1) h)

theorem findAux_value (searchLower : String) (idSearch : Option Int)
    (cmds : List Cmd) (i : Nat) (target : Cmd)
    (hmem : target ∈ cmds)
    (hmatch : (matchesId idSearch target || matchesAlias searchLower target) = true)
    (huniq : ∀ c ∈ cmds,
      (matchesId idSearch c || matchesAlias searchLower c) = true → c = target) :
    ∃ k, findAux searchLower idSearch cmds i = some (target, k) := by
  induction cmds generalizing i with
  | nil => exact absurd hmem (List.not_mem_nil target)
  | cons d rest ih =>
    by_cases hd : (matchesId idSearch d || matchesAlias searchLower d) = true
    · have hdt : d = target := huniq d (List.mem_cons_self d rest) hd
      refine ⟨i, ?_⟩
      by_cases hid : matchesId idSearch d = true
      · rw [findAux_cons_id searchLower idSearch d rest i hid, hdt]
      · rw [Bool.not_eq_true] at hid
        have hal : matchesAlias searchLower d = true := by
          have hm : matchesId idSearch d = true ∨ matchesAlias searchLower d = true := by
            simpa using hd
          rcases hm with h | h
          · rw [h] at hid; exact absurd hid (by simp)
          · exact h
        rw [findAux_cons_alias searchLower idSearch d rest i hid hal, hdt]
    · have h1 : matchesId idSearch d = false := by
        cases hid : matchesId idSearch d
        · rfl
        · exact absurd (by simp [hid]) hd
      have h2 : matchesAlias searchLower d = false := by
        cases hal : matchesAlias searchLower d
        · rfl
        · exact absurd (by simp [hal]) hd
      have hmem' : target ∈ rest := by
        rcases List.mem_cons.mp hmem with heq | hmem'
        · exfalso
          rw [heq] at hmatch
          simp [h1, h2] at hmatch
        · exact hmem'
      rcases ih (i + 1) hmem' (fun c hc => huniq c (List.mem_cons_of_mem d hc))
        with ⟨k, hk⟩
      refine ⟨k, ?_⟩
      rw [findAux_cons_skip searchLower idSearch d rest i h1 h2]
      exact hk

/- ### Claim C2: the resolver is a single first-match scan -/

/-- C2: `resolve` scans records in stored order and returns the first record
matching by either criterion (id against the integer parse of the specifier,
then alias case-insensitively); when nothing matches it reports not-found
(`none`).  There is no global pass preferring id hits: a record earlier in
the scan wins by alias even when a later record would match by id. -/
theorem spec_c2_resolver_first_match (specifier : String) (cmds : List Cmd) :
    ((∀ c ∈ cmds, specMatches specifier c = false) →
      findCommandByIdOrAlias specifier cmds = none) ∧
    (∀ j (hj : j < cmds.length), specMatches specifier (cmds.get ⟨j, hj⟩) = true →
      (∀ j' (hj' : j' < cmds.length), j' < j →
        specMatches specifier (cmds.get ⟨j', hj'⟩) = false) →
      findCommandByIdOrAlias specifier cmds = some (cmds.get ⟨j, hj⟩, j)) := by
  constructor
  · intro h
    exact findAux_eq_none _ _ _ _ (fun c hc => h c hc)
  · intro j hj hmatch hfirst
    have h := findAux_first (jsToLower specifier) (jsParseInt specifier) cmds j 0 hj
      hmatch hfirst
    simpa [findCommandByIdOrAlias] using h

/-- Witness for C2 at a concrete store: the specifier `"7"` is resolved to
the first record (alias `"7"`) even though the second record has id 7. -/
theorem spec_c2_witness :
    findCommandByIdOrAlias "7"
      [⟨1, some "7", "echo one", none⟩, ⟨7, none, "echo seven", none⟩] =
      some (⟨1, some "7", "echo one", none⟩, 0) := by
  have h := (spec_c2_resolver_first_match "7"
    [⟨1, some "7", "echo one", none⟩, ⟨7, none, "echo seven", none⟩]).2
    0 (by decide) (by decide)
    (fun j' hj' hlt => absurd hlt (Nat.not_lt_zero j'))
  exact h

/- ### Claim C10: parseInt accepts a digit prefix -/

/-- C10 (implicit): `parseInt` succeeds on a specifier whose leading
characters form a base-10 integer followed by other text, so `"7abc"` is
treated as the numeric id 7: the resolver returns the record whose id is 7
(provided no earlier record matches the specifier), even though `"7abc"` is
neither a pure number nor the record's alias. -/
theorem spec_c10_digit_prefix (cmds : List Cmd) (j : Nat) (hj : j < cmds.length)
    (hid : (cmds.get ⟨j, hj⟩).id = 7)
    (hfirst : ∀ j' (hj' : j' < cmds.length), j' < j →
      specMatches "7abc" (cmds.get ⟨j', hj'⟩) = false) :
    jsParseInt "7abc" = some 7 ∧
    findCommandByIdOrAlias "7abc" cmds = some (cmds.get ⟨j, hj⟩, j) := by
  have hparse : jsParseInt "7abc" = some 7 := by decide
  refine ⟨hparse, ?_⟩
  have hmatch : specMatches "7abc" (cmds.get ⟨j, hj⟩) = true := by
    simp only [specMatches, hparse, matchesId, Bool.or_eq_true, beq_iff_eq]
    exact Or.inl hid
  have h := findAux_first (jsToLower "7abc") (jsParseInt "7abc") cmds j 0 hj hmatch hfirst
  simpa [findCommandByIdOrAlias] using h

/-- Witness for C10: in a one-record store with id 7, `resolve("7abc")`
returns that record. -/
theorem spec_c10_witness :
    findCommandByIdOrAlias "7abc" [⟨7, none, "echo seven", none⟩] =
      some (⟨7, none, "echo seven", none⟩, 0) := by
  have h := spec_c10_digit_prefix [⟨7, none, "echo seven", none⟩] 0 (by decide)
    (by decide) (fun j' hj' hlt => absurd hlt (Nat.not_lt_zero j'))
  exact h.2

/- ### Claim C4: alias uniqueness -/

theorem isAliasUnique_record_iff (a : String) (excludeId : Option Int)
    (cmd : Cmd) :
    (((match cmd.«alias» with
       | some s => s != "" && jsToLower s == jsToLower a
       | none => false) && (some cmd.id != excludeId)) = false) ↔
    (∀ s, cmd.«alias» = some s → s ≠ "" → jsToLower s = jsToLower a →
      some cmd.id = excludeId) := by
  cases hs : cmd.«alias» with
  | none => simp
  | some s =>
    by_cases h1 : s = ""
    · simp [h1]
    · by_cases h2 : jsToLower s = jsToLower a
      · simp [h1, h2, bne_iff_ne]
      · simp [h1, h2, bne_iff_ne]

/-- C4: `isAliasUnique` returns true for an empty/absent alias, and otherwise
returns true iff every record carrying the same alias under case-insensitive
comparison is the record excluded by `excludeId`; in particular it is false
for a case-insensitive duplicate and true again once the conflicting record
is excluded by its own id. -/
theorem spec_c4_alias_unique (a : String) (commands : List Cmd)
    (excludeId : Option Int) (h : a ≠ "") :
    isAliasUnique "" commands excludeId = true ∧
    (isAliasUnique a commands excludeId = true ↔
      ∀ cmd ∈ commands, ∀ s, cmd.«alias» = some s → s ≠ "" →
        jsToLower s = jsToLower a → some cmd.id = excludeId) := by
  constructor
  · simp [isAliasUnique]
  · rw [isAliasUnique, if_neg h, Bool.not_eq_true', List.any_eq_false]
    constructor
    · intro hall cmd hmem
      exact (isAliasUnique_record_iff a excludeId cmd).mp (by simpa using hall cmd hmem)
    · intro hall cmd hmem
      simpa using (isAliasUnique_record_iff a excludeId cmd).mpr (hall cmd hmem)

/-- Witness for C4: `"Web"` collides case-insensitively with the stored
alias `"web"` of record 1, and is unique again once record 1 is excluded. -/
theorem spec_c4_witness :
    isAliasUnique "" [⟨1, some "web", "curl x", none⟩] (some 1) = true ∧
    (isAliasUnique "Web" [⟨1, some "web", "curl x", none⟩] (some 1) = true ↔
      ∀ cmd ∈ [(⟨1, some "web", "curl x", none⟩ : Cmd)], ∀ s,
        cmd.«alias» = some s → s ≠ "" → jsToLower s = jsToLower "Web" →
        some cmd.id = some 1) :=
  spec_c4_alias_unique "Web" [⟨1, some "web", "curl x", none⟩] (some 1)
    (by decide)

/- ### Placeholder substitution (`handleRunCommand`) -/

/-- The `{` character (written by code point to keep braces out of text). -/
def openBrace : Char := Char.ofNat 123

/-- The `}` character. -/
def closeBrace : Char := Char.ofNat 125

/-- The `$` character, special in JS string-replacement patterns. -/
def dollarChar : Char := '$'

/-- The backquote character (code point 96). -/
def backquoteChar : Char := Char.ofNat 96

/-- The single-quote character (code point 39). -/
def singleQuoteChar : Char := Char.ofNat 39

/-- The `&` character. -/
def ampChar : Char := '&'

/-- Split a character list at the first occurrence of the two-character
placeholder marker (`indexOf` of the `{}` pattern): `some (pre, post)` when
the list is `pre ++ marker ++ post` with no marker inside `pre`. -/
def splitFirst : List Char → Option (List Char × List Char)
  | [] => none
  | [_] => none
  | c1 :: c2 :: rest =>
    if c1 = openBrace ∧ c2 = closeBrace then some ([], rest)
    else (splitFirst (c2 :: rest)).map (fun pq => (c1 :: pq.1, pq.2))

/-- Number of non-overlapping marker occurrences scanning left to right:
`(commandString.match(/{}/g) || []).length`. -/
def countPh : List Char → Nat
  | [] => 0
  | [_] => 0
  | c1 :: c2 :: rest =>
    if c1 = openBrace ∧ c2 = closeBrace then 1 + countPh rest
    else countPh (c2 :: rest)

/-- `commandString.includes(placeholder)`. -/
def hasPh (cs : List Char) : Bool := (splitFirst cs).isSome

/-- The `GetSubstitution` step of JS `String.prototype.replace` for a
string pattern: in the replacement text, a dollar doubles to itself,
dollar-ampersand inserts the matched marker, dollar-backquote the text
before the match and dollar-quote the text after it; any other character is
copied. -/
def getSub (before after : List Char) : List Char → List Char
  | [] => []
  | [c] => [c]
  | c1 :: c2 :: rest =>
    if c1 = dollarChar then
      if c2 = dollarChar then dollarChar :: getSub before after rest
      else if c2 = ampChar then
        openBrace :: closeBrace :: getSub before after rest
      else if c2 = backquoteChar then before ++ getSub before after rest
      else if c2 = singleQuoteChar then after ++ getSub before after rest
      else c1 :: getSub before after (c2 :: rest)
    else c1 :: getSub before after (c2 :: rest)

/-- `commandString.replace(placeholder, repl)` — replace the first marker
occurrence, applying the JS substitution rules to the replacement text;
the string is returned unchanged when no marker occurs. -/
def jsReplaceFirstPh (cs : List Char) (repl : List Char) : List Char :=
  match splitFirst cs with
  | none => cs
  | some (pre, post) => pre ++ getSub pre post repl ++ post

/-- The substitution loop of `handleRunCommand`:
`while (commandString.includes(placeholder) && currentArgIndex < runtimeArgs.length)`
replace the first marker occurrence with the next runtime argument. -/
def substLoop : List Char → List String → List Char
  | cs, [] => cs
  | cs, a :: rest =>
    if hasPh cs then substLoop (jsReplaceFirstPh cs a.data) rest else cs

/-- Placeholder count of a stored command string. -/
def countPlaceholders (s : String) : Nat := countPh s.data

/-- Non-fatal warnings emitted by the run path: the count-based warning when
more arguments than placeholders are supplied, and the ignored-arguments
warning when a placeholder-free command receives arguments (this latter one
names the arguments themselves). -/
inductive RunWarning where
  | unusedArgsCount (provided required : Nat)
  | noPlaceholders (args : List String)
deriving Repr, DecidableEq

/-- Outcome of the placeholder-handling section of `handleRunCommand`.
Only a `prepared` outcome continues to the confirmation prompt and the
external `execSync` collaborator; `insufficientArgs` returns immediately. -/
inductive RunOutcome where
  | insufficientArgs (required provided : Nat)
  | prepared (finalCmd : String) (warning : Option RunWarning)
deriving Repr, DecidableEq

/-- The placeholder-handling section of `handleRunCommand`: count the
markers; when the count is positive demand at least that many runtime
arguments (otherwise fail and execute nothing), run the substitution loop,
and warn when extra arguments remain; when the count is zero keep the
command unmodified and warn if arguments were supplied. -/
def handleRunPrepare (command : String) (runtimeArgs : List String) :
    RunOutcome :=
  let placeholderCount := countPlaceholders command
  if 0 < placeholderCount then
    if runtimeArgs.length < placeholderCount then
      RunOutcome.insufficientArgs placeholderCount runtimeArgs.length
    else
      RunOutcome.prepared (String.mk (substLoop command.data runtimeArgs))
        (if placeholderCount < runtimeArgs.length then
          some (RunWarning.unusedArgsCount runtimeArgs.length placeholderCount)
         else none)
  else
    RunOutcome.prepared command
      (if 0 < runtimeArgs.length then
        some (RunWarning.noPlaceholders runtimeArgs)
       else none)

/-- Substitution as the specification words it: walk the command once,
replacing marker occurrences left to right, one argument per occurrence,
leaving the text otherwise untouched (arguments past the list are not
consumed; leftover markers stay). -/
def specSubstA : List Char → List String → List Char
  | cs, [] => cs
  | [], _ :: _ => []
  | [c], _ :: _ => [c]
  | c1 :: c2 :: rest, a :: as =>
    if c1 = openBrace ∧ c2 = closeBrace then a.data ++ specSubstA rest as
    else c1 :: specSubstA (c2 :: rest) (a :: as)

/-- String-level wrapper of `specSubstA`. -/
def specSubst (s : String) (args : List String) : String :=
  String.mk (specSubstA s.data args)

/- ### Claim C3: insufficient arguments block execution -/

/-- C3: when a stored command contains `n > 0` placeholder markers and only
`m < n` runtime arguments are supplied, the run path fails with the
insufficient-arguments error reporting required count `n` and provided
count `m`; no substitution result is produced and the execution collaborator
is never invoked (only a `prepared` outcome reaches it). -/
theorem spec_c3_insufficient_args (command : String) (args : List String)
    (hpos : 0 < countPlaceholders command)
    (hlt : args.length < countPlaceholders command) :
    handleRunPrepare command args =
      RunOutcome.insufficientArgs (countPlaceholders command) args.length ∧
    ∀ s w, handleRunPrepare command args ≠ RunOutcome.prepared s w := by
  have h : handleRunPrepare command args =
      RunOutcome.insufficientArgs (countPlaceholders command) args.length := by
    unfold handleRunPrepare
    rw [if_pos hpos, if_pos hlt]
  refine ⟨h, ?_⟩
  intro s w hcontra
  rw [h] at hcontra
  exact RunOutcome.noConfusion hcontra

/-- Witness for C3: `"echo {} {}"` with a single argument fails with
`InsufficientArguments(2, 1)` and never reaches execution. -/
theorem spec_c3_witness :
    handleRunPrepare "echo \x7b\x7d \x7b\x7d" ["a"] =
      RunOutcome.insufficientArgs 2 1 ∧
    ∀ s w, handleRunPrepare "echo \x7b\x7d \x7b\x7d" ["a"] ≠
      RunOutcome.prepared s w := by
  have h := spec_c3_insufficient_args "echo \x7b\x7d \x7b\x7d" ["a"]
    (by decide) (by decide)
  exact h

/- ### Structural lemmas for the substitution loop -/

/-- An argument is clean when it is non-empty and contains no brace or
dollar character (so substituting it can neither create a new marker nor
trigger a replacement-pattern expansion). -/
def cleanArg (a : String) : Prop :=
  a ≠ "" ∧ ∀ ch ∈ a.data, ch ≠ openBrace ∧ ch ≠ closeBrace ∧ ch ≠ dollarChar

instance (a : String) : Decidable (cleanArg a) := by
  unfold cleanArg
  infer_instance

theorem cleanArg_data_ne_nil {a : String} (h : cleanArg a) : a.data ≠ [] := by
  intro hdata
  apply h.1
  cases a with
  | mk data => simp at hdata; rw [hdata]

theorem splitFirst_cons (c : Char) (cs : List Char)
    (h : ¬(c = openBrace ∧ cs.head? = some closeBrace)) :
    splitFirst (c :: cs) = (splitFirst cs).map (fun pq => (c :: pq.1, pq.2)) := by
  cases cs with
  | nil => rfl
  | cons c2 rest =>
    have h2 : ¬(c = openBrace ∧ c2 = closeBrace) := by
      intro ⟨ha, hb⟩
      exact h ⟨ha, by simp [hb]⟩
    rw [splitFirst, if_neg h2]

theorem splitFirst_cons_none {c : Char} {cs : List Char}
    (h : splitFirst (c :: cs) = none) : splitFirst cs = none := by
  cases cs with
  | nil => rfl
  | cons c2 rest =>
    rw [splitFirst] at h
    by_cases hbr : c = openBrace ∧ c2 = closeBrace
    · rw [if_pos hbr] at h
      exact Option.noConfusion h
    · rw [if_neg hbr] at h
      exact Option.map_eq_none'.mp h

theorem splitFirst_decomp {cs pre post : List Char}
    (h : splitFirst cs = some (pre, post)) :
    cs = pre ++ openBrace :: closeBrace :: post := by
  induction cs generalizing pre with
  | nil => exact Option.noConfusion h
  | cons c tail ih =>
    cases tail with
    | nil => exact Option.noConfusion h
    | cons c2 rest =>
      rw [splitFirst] at h
      by_cases hbr : c = openBrace ∧ c2 = closeBrace
      · rw [if_pos hbr] at h
        simp only [Option.some.injEq, Prod.mk.injEq] at h
        rw [← h.1, ← h.2, hbr.1, hbr.2]
        rfl
      · rw [if_neg hbr] at h
        rcases Option.map_eq_some'.mp h with ⟨⟨p1, p2⟩, hpq, heq⟩
        simp only [Prod.mk.injEq] at heq
        obtain ⟨he1, he2⟩ := heq
        subst he1
        subst he2
        have hrec := ih hpq
        simp only [List.cons_append]
        rw [hrec]

theorem countPh_split_none {cs : List Char} (h : splitFirst cs = none) :
    countPh cs = 0 := by
  induction cs with
  | nil => rfl
  | cons c tail ih =>
    cases tail with
    | nil => rfl
    | cons c2 rest =>
      rw [splitFirst] at h
      rw [countPh]
      by_cases hbr : c = openBrace ∧ c2 = closeBrace
      · rw [if_pos hbr] at h
        exact Option.noConfusion h
      · rw [if_neg hbr] at h
        rw [if_neg hbr]
        exact ih (Option.map_eq_none'.mp h)

theorem countPh_split_some {cs pre post : List Char}
    (h : splitFirst cs = some (pre, post)) :
    countPh cs = countPh post + 1 := by
  induction cs generalizing pre with
  | nil => exact Option.noConfusion h
  | cons c tail ih =>
    cases tail with
    | nil => exact Option.noConfusion h
    | cons c2 rest =>
      rw [splitFirst] at h
      rw [countPh]
      by_cases hbr : c = openBrace ∧ c2 = closeBrace
      · rw [if_pos hbr] at h
        simp only [Option.some.injEq, Prod.mk.injEq] at h
        rw [if_pos hbr, h.2]
        omega
      · rw [if_neg hbr] at h
        rw [if_neg hbr]
        rcases Option.map_eq_some'.mp h with ⟨⟨p1, p2⟩, hpq, heq⟩
        simp only [Prod.mk.injEq] at heq
        exact ih (show splitFirst (c2 :: rest) = some (p1, post) by rw [hpq, heq.2])

theorem splitFirst_of_countPh_pos {cs : List Char} (h : 0 < countPh cs) :
    ∃ pre post, splitFirst cs = some (pre, post) := by
  cases hsp : splitFirst cs with
  | none => rw [countPh_split_none hsp] at h; exact absurd h (by omega)
  | some pq =>
    rcases pq with ⟨p1, p2⟩
    exact ⟨p1, p2, rfl⟩

theorem splitFirst_pre {cs pre post : List Char}
    (h : splitFirst cs = some (pre, post)) : splitFirst pre = none := by
  induction cs generalizing pre with
  | nil => exact Option.noConfusion h
  | cons c tail ih =>
    cases tail with
    | nil => exact Option.noConfusion h
    | cons c2 rest =>
      rw [splitFirst] at h
      by_cases hbr : c = openBrace ∧ c2 = closeBrace
      · rw [if_pos hbr] at h
        simp only [Option.some.injEq, Prod.mk.injEq] at h
        rw [← h.1]
        rfl
      · rw [if_neg hbr] at h
        rcases Option.map_eq_some'.mp h with ⟨⟨p1, p2⟩, hpq, heq⟩
        simp only [Prod.mk.injEq] at heq
        have hpre1 : splitFirst p1 = none :=
          ih (show splitFirst (c2 :: rest) = some (p1, post) by rw [hpq, heq.2])
        rw [← heq.1]
        cases hq : p1 with
        | nil => rfl
        | cons d q2 =>
          have hd : d = c2 := by
            have hdec := splitFirst_decomp hpq
            rw [hq] at hdec
            simp only [List.cons_append, List.cons.injEq] at hdec
            exact hdec.1.symm
          rw [splitFirst]
          have hbr2 : ¬(c = openBrace ∧ d = closeBrace) := by
            intro ⟨ha, hb⟩
            exact hbr ⟨ha, by rw [← hd, hb]⟩
          rw [if_neg hbr2]
          rw [hq] at hpre1
          rw [hpre1]
          rfl

theorem splitFirst_braceFree {cs : List Char}
    (h : ∀ ch ∈ cs, ch ≠ openBrace) : splitFirst cs = none := by
  induction cs with
  | nil => rfl
  | cons c tail ih =>
    cases tail with
    | nil => rfl
    | cons c2 rest =>
      rw [splitFirst]
      have hbr : ¬(c = openBrace ∧ c2 = closeBrace) := by
        intro ⟨ha, _⟩
        exact h c (List.mem_cons_self _ _) ha
      rw [if_neg hbr]
      rw [ih (fun ch hch => h ch (List.mem_cons_of_mem c hch))]
      rfl

theorem getSub_clean (before after : List Char) {repl : List Char}
    (h : ∀ ch ∈ repl, ch ≠ dollarChar) : getSub before after repl = repl := by
  induction repl with
  | nil => rfl
  | cons c1 tail ih =>
    cases tail with
    | nil => rfl
    | cons c2 rest =>
      rw [getSub, if_neg (h c1 (List.mem_cons_self _ _))]
      rw [ih (fun ch hch => h ch (List.mem_cons_of_mem c1 hch))]

theorem splitFirst_append_none {u : List Char} (v : List Char)
    (hu : splitFirst u = none)
    (hstr : ¬(u.getLast? = some openBrace ∧ v.head? = some closeBrace)) :
    splitFirst (u ++ v) = (splitFirst v).map (fun pq => (u ++ pq.1, pq.2)) := by
  induction u with
  | nil =>
    simp only [List.nil_append]
    cases splitFirst v with
    | none => rfl
    | some pq => rcases pq with ⟨p1, p2⟩; rfl
  | cons c u1 ih =>
    have hu1 : splitFirst u1 = none := splitFirst_cons_none hu
    have hstr1 : ¬(u1.getLast? = some openBrace ∧ v.head? = some closeBrace) := by
      cases u1 with
      | nil => intro ⟨h1, _⟩; exact Option.noConfusion h1
      | cons d r =>
        intro ⟨h1, h2⟩
        apply hstr
        exact ⟨by rw [List.getLast?_cons_cons]; exact h1, h2⟩
    have hcons : ¬(c = openBrace ∧ (u1 ++ v).head? = some closeBrace) := by
      intro ⟨ha, hb⟩
      cases hu1v : u1 with
      | nil =>
        apply hstr
        refine ⟨by rw [hu1v, ha]; simp, ?_⟩
        rw [hu1v] at hb
        simpa using hb
      | cons d r =>
        rw [hu1v] at hb
        have hd : d = closeBrace := by simpa using hb
        have hsome : splitFirst (c :: d :: r) = some ([], r) := by
          rw [splitFirst, if_pos ⟨ha, hd⟩]
        rw [hu1v] at hu
        rw [hsome] at hu
        exact Option.noConfusion hu
    rw [List.cons_append]
    rw [splitFirst_cons c (u1 ++ v) hcons]
    rw [ih hu1 hstr1]
    cases splitFirst v with
    | none => rfl
    | some pq => rcases pq with ⟨p1, p2⟩; rfl

theorem countPh_append_phFree {u : List Char} (v : List Char)
    (hu : splitFirst u = none)
    (hstr : ¬(u.getLast? = some openBrace ∧ v.head? = some closeBrace)) :
    countPh (u ++ v) = countPh v := by
  cases hv : splitFirst v with
  | none =>
    have h2 : splitFirst (u ++ v) = none := by
      rw [splitFirst_append_none v hu hstr, hv]; rfl
    rw [countPh_split_none h2, countPh_split_none hv]
  | some pq =>
    rcases pq with ⟨p1, p2⟩
    have h2 : splitFirst (u ++ v) = some (u ++ p1, p2) := by
      rw [splitFirst_append_none v hu hstr, hv]; rfl
    rw [countPh_split_some h2, countPh_split_some hv]

theorem splitFirst_append_braceFree {u w : List Char}
    (hu : splitFirst u = none)
    (hw : ∀ ch ∈ w, ch ≠ openBrace ∧ ch ≠ closeBrace) :
    splitFirst (u ++ w) = none := by
  have hstr : ¬(u.getLast? = some openBrace ∧ w.head? = some closeBrace) := by
    intro ⟨_, h2⟩
    cases w with
    | nil => exact Option.noConfusion h2
    | cons d r =>
      have hd : d = closeBrace := by simpa using h2
      exact (hw d (List.mem_cons_self _ _)).2 hd
  rw [splitFirst_append_none w hu hstr,
    splitFirst_braceFree (fun ch hch => (hw ch hch).1)]
  rfl

theorem substLoop_cons_has {cs : List Char} (a : String) (rest : List String)
    (h : hasPh cs = true) :
    substLoop cs (a :: rest) = substLoop (jsReplaceFirstPh cs a.data) rest := by
  simp [substLoop, h]

theorem substLoop_cons_nohas {cs : List Char} (a : String) (rest : List String)
    (h : hasPh cs = false) : substLoop cs (a :: rest) = cs := by
  simp [substLoop, h]

theorem specSubstA_nil (cs : List Char) : specSubstA cs [] = cs := by
  cases cs with
  | nil => rfl
  | cons c tail => cases tail <;> rfl

theorem specSubstA_split {cs pre post : List Char}
    (h : splitFirst cs = some (pre, post)) (a : String) (as : List String) :
    specSubstA cs (a :: as) = pre ++ a.data ++ specSubstA post as := by
  induction cs generalizing pre with
  | nil => exact Option.noConfusion h
  | cons c tail ih =>
    cases tail with
    | nil => exact Option.noConfusion h
    | cons c2 rest =>
      rw [splitFirst] at h
      by_cases hbr : c = openBrace ∧ c2 = closeBrace
      · rw [if_pos hbr] at h
        simp only [Option.some.injEq, Prod.mk.injEq] at h
        obtain ⟨h1, h2⟩ := h
        subst h1
        subst h2
        rw [specSubstA, if_pos hbr]
        simp
      · rw [if_neg hbr] at h
        rcases Option.map_eq_some'.mp h with ⟨⟨p1, p2⟩, hpq, heq⟩
        simp only [Prod.mk.injEq] at heq
        obtain ⟨he1, he2⟩ := heq
        subst he1
        subst he2
        rw [specSubstA, if_neg hbr]
        rw [ih hpq]
        simp

theorem substLoop_append (args : List String) (u cs : List Char)
    (hu : splitFirst u = none)
    (hstr : ¬(u.getLast? = some openBrace ∧ cs.head? = some closeBrace))
    (hclean : ∀ a ∈ args.take (countPh cs), cleanArg a) :
    substLoop (u ++ cs) args = u ++ substLoop cs args := by
  induction args generalizing cs with
  | nil => rfl
  | cons a rest ih =>
    cases hsp : splitFirst cs with
    | none =>
      have h2 : splitFirst (u ++ cs) = none := by
        rw [splitFirst_append_none cs hu hstr, hsp]; rfl
      rw [substLoop_cons_nohas a rest (by rw [hasPh, h2]; rfl),
          substLoop_cons_nohas a rest (by rw [hasPh, hsp]; rfl)]
    | some pq =>
      rcases pq with ⟨pre, post⟩
      have hdecomp : cs = pre ++ openBrace :: closeBrace :: post :=
        splitFirst_decomp hsp
      have h2 : splitFirst (u ++ cs) = some (u ++ pre, post) := by
        rw [splitFirst_append_none cs hu hstr, hsp]; rfl
      have hcount : countPh cs = countPh post + 1 := countPh_split_some hsp
      have hca : cleanArg a := by
        apply hclean a
        rw [hcount, List.take_succ_cons]
        exact List.mem_cons_self _ _
      have hadne : a.data ≠ [] := cleanArg_data_ne_nil hca
      have hdollar : ∀ ch ∈ a.data, ch ≠ dollarChar :=
        fun ch hch => (hca.2 ch hch).2.2
      have hbrace : ∀ ch ∈ a.data, ch ≠ openBrace ∧ ch ≠ closeBrace :=
        fun ch hch => ⟨(hca.2 ch hch).1, (hca.2 ch hch).2.1⟩
      have hrepl : jsReplaceFirstPh cs a.data = pre ++ a.data ++ post := by
        rw [jsReplaceFirstPh, hsp]
        show pre ++ getSub pre post a.data ++ post = pre ++ a.data ++ post
        rw [getSub_clean pre post hdollar]
      have hreplU : jsReplaceFirstPh (u ++ cs) a.data =
          u ++ (pre ++ a.data ++ post) := by
        rw [jsReplaceFirstPh, h2]
        show (u ++ pre) ++ getSub (u ++ pre) post a.data ++ post =
          u ++ (pre ++ a.data ++ post)
        rw [getSub_clean (u ++ pre) post hdollar]
        simp [List.append_assoc]
      have hstr2 : ¬(u.getLast? = some openBrace ∧
          (pre ++ a.data ++ post).head? = some closeBrace) := by
        intro ⟨h1, hhd⟩
        cases hpre : pre with
        | nil =>
          rw [hpre] at hhd
          simp only [List.nil_append] at hhd
          cases had : a.data with
          | nil => exact hadne had
          | cons d r =>
            rw [had] at hhd
            simp only [List.cons_append, List.head?_cons, Option.some.injEq] at hhd
            exact (hbrace d (by rw [had]; exact List.mem_cons_self _ _)).2 hhd
        | cons p ps =>
          rw [hpre] at hhd
          have hp : p = closeBrace := by simpa using hhd
          apply hstr
          refine ⟨h1, ?_⟩
          rw [hdecomp, hpre, hp]
          simp
      have hpreNone : splitFirst (pre ++ a.data) = none :=
        splitFirst_append_braceFree (splitFirst_pre hsp) hbrace
      have hstr3 : ¬((pre ++ a.data).getLast? = some openBrace ∧
          post.head? = some closeBrace) := by
        intro ⟨h1, _⟩
        have hlast : (pre ++ a.data).getLast? = a.data.getLast? :=
          List.getLast?_append_of_ne_nil pre hadne
        rw [hlast] at h1
        exact (hbrace openBrace (List.mem_of_getLast?_eq_some h1)).1 rfl
      have hcount2 : countPh (pre ++ a.data ++ post) = countPh post :=
        countPh_append_phFree post hpreNone hstr3
      have hcleanRest : ∀ b ∈ rest.take (countPh (pre ++ a.data ++ post)),
          cleanArg b := by
        rw [hcount2]
        intro b hb
        apply hclean b
        rw [hcount, List.take_succ_cons]
        exact List.mem_cons_of_mem a hb
      calc substLoop (u ++ cs) (a :: rest)
          = substLoop (jsReplaceFirstPh (u ++ cs) a.data) rest :=
            substLoop_cons_has a rest (by rw [hasPh, h2]; rfl)
        _ = substLoop (u ++ (pre ++ a.data ++ post)) rest := by rw [hreplU]
        _ = u ++ substLoop (pre ++ a.data ++ post) rest :=
            ih (pre ++ a.data ++ post) hstr2 hcleanRest
        _ = u ++ substLoop (jsReplaceFirstPh cs a.data) rest := by rw [hrepl]
        _ = u ++ substLoop cs (a :: rest) := by
            rw [substLoop_cons_has a rest (by rw [hasPh, hsp]; rfl)]

theorem substLoop_eq_spec (args : List String) (cs : List Char)
    (hlen : countPh cs ≤ args.length)
    (hclean : ∀ a ∈ args.take (countPh cs), cleanArg a) :
    substLoop cs args = specSubstA cs (args.take (countPh cs)) := by
  induction args generalizing cs with
  | nil =>
    have h0 : countPh cs = 0 := Nat.le_zero.mp hlen
    rw [h0, List.take_zero, specSubstA_nil]
    rfl
  | cons a rest ih =>
    cases hc : countPh cs with
    | zero =>
      have hsp : splitFirst cs = none := by
        cases hsp2 : splitFirst cs with
        | none => rfl
        | some pq =>
          rcases pq with ⟨p1, p2⟩
          rw [countPh_split_some hsp2] at hc
          exact absurd hc (by omega)
      rw [substLoop_cons_nohas a rest (by rw [hasPh, hsp]; rfl)]
      rw [List.take_zero]
      exact (specSubstA_nil cs).symm
    | succ k =>
      rw [hc] at hclean hlen
      rcases splitFirst_of_countPh_pos (show 0 < countPh cs by rw [hc]; omega)
        with ⟨pre, post, hsp⟩
      have hcount : countPh post = k := by
        have h3 := countPh_split_some hsp
        rw [hc] at h3
        omega
      have hca : cleanArg a := by
        apply hclean a
        rw [List.take_succ_cons]
        exact List.mem_cons_self _ _
      have hadne : a.data ≠ [] := cleanArg_data_ne_nil hca
      have hdollar : ∀ ch ∈ a.data, ch ≠ dollarChar :=
        fun ch hch => (hca.2 ch hch).2.2
      have hbrace : ∀ ch ∈ a.data, ch ≠ openBrace ∧ ch ≠ closeBrace :=
        fun ch hch => ⟨(hca.2 ch hch).1, (hca.2 ch hch).2.1⟩
      have hrepl : jsReplaceFirstPh cs a.data = pre ++ a.data ++ post := by
        rw [jsReplaceFirstPh, hsp]
        show pre ++ getSub pre post a.data ++ post = pre ++ a.data ++ post
        rw [getSub_clean pre post hdollar]
      have hu : splitFirst (pre ++ a.data) = none :=
        splitFirst_append_braceFree (splitFirst_pre hsp) hbrace
      have hstr : ¬((pre ++ a.data).getLast? = some openBrace ∧
          post.head? = some closeBrace) := by
        intro ⟨h1, _⟩
        have hlast : (pre ++ a.data).getLast? = a.data.getLast? :=
          List.getLast?_append_of_ne_nil pre hadne
        rw [hlast] at h1
        exact (hbrace openBrace (List.mem_of_getLast?_eq_some h1)).1 rfl
      have hcleanRest : ∀ b ∈ rest.take (countPh post), cleanArg b := by
        rw [hcount]
        intro b hb
        apply hclean b
        rw [List.take_succ_cons]
        exact List.mem_cons_of_mem a hb
      have hlen2 : countPh post ≤ rest.length := by
        simp only [List.length_cons] at hlen
        omega
      rw [substLoop_cons_has a rest (by rw [hasPh, hsp]; rfl), hrepl]
      rw [List.take_succ_cons, specSubstA_split hsp a (rest.take k)]
      have happ : pre ++ a.data ++ post = (pre ++ a.data) ++ post := by
        simp [List.append_assoc]
      rw [happ, substLoop_append rest (pre ++ a.data) post hu hstr hcleanRest]
      rw [ih post hlen2 hcleanRest, hcount]

/- ### Claim C1: substitution uses exactly the first n arguments -/

/-- C1 counterexample: the claim states that with `n` placeholder markers
only the first `n` runtime arguments are ever substituted and the extras are
merely warned about.  For the stored command `"echo {}"` (one marker) with
arguments `["{}", "b"]` the claim predicts the prepared string
`specSubst "echo \x7b\x7d" ["\x7b\x7d"] = "echo \x7b\x7d"` with `"b"`
unused; the loop in the code instead re-finds the marker just substituted
and consumes the second argument, producing `"echo b"`. -/
theorem spec_c1_counterexample :
    countPlaceholders "echo \x7b\x7d" = 1 ∧
    handleRunPrepare "echo \x7b\x7d" ["\x7b\x7d", "b"] =
      RunOutcome.prepared "echo b" (some (RunWarning.unusedArgsCount 2 1)) ∧
    ∀ w, handleRunPrepare "echo \x7b\x7d" ["\x7b\x7d", "b"] ≠
      RunOutcome.prepared (specSubst "echo \x7b\x7d" ["\x7b\x7d"]) w := by
  refine ⟨by decide, by decide, ?_⟩
  intro w h
  have h2 : handleRunPrepare "echo \x7b\x7d" ["\x7b\x7d", "b"] =
      RunOutcome.prepared "echo b" (some (RunWarning.unusedArgsCount 2 1)) := by
    decide
  rw [h2] at h
  injection h with h3 h4
  exact absurd h3 (by decide)

/-- C1 (amended): for a stored command with `n > 0` placeholder markers and
at least `n` runtime arguments, provided each of the first `n` arguments is
non-empty and contains no brace or dollar character, the prepared string is
the stored command with its markers substituted left-to-right by exactly the
first `n` arguments; arguments beyond the first `n` are not substituted and
are reported only through the count-based unused-arguments warning (which
names the provided and required counts, not the extra argument values). -/
theorem spec_c1_amended (command : String) (args : List String) (n : Nat)
    (hn : countPlaceholders command = n) (hpos : 0 < n) (hle : n ≤ args.length)
    (hclean : ∀ a ∈ args.take n, cleanArg a) :
    handleRunPrepare command args =
      RunOutcome.prepared (specSubst command (args.take n))
        (if n < args.length then
          some (RunWarning.unusedArgsCount args.length n) else none) := by
  subst hn
  have hle2 : countPh command.data ≤ args.length := hle
  have hclean2 : ∀ a ∈ args.take (countPh command.data), cleanArg a := hclean
  unfold handleRunPrepare
  rw [if_pos hpos, if_neg (by omega : ¬(args.length < countPlaceholders command))]
  rw [show substLoop command.data args =
        specSubstA command.data (args.take (countPh command.data)) from
      substLoop_eq_spec args command.data hle2 hclean2]
  rfl

/-- Witness for the amended C1 at the specification's own example:
`"echo {} {}"` with `["a", "b", "c"]` prepares `"echo a b"` and warns with
the counts 3 and 2. -/
theorem spec_c1_amended_witness :
    handleRunPrepare "echo \x7b\x7d \x7b\x7d" ["a", "b", "c"] =
      RunOutcome.prepared "echo a b" (some (RunWarning.unusedArgsCount 3 2)) := by
  have h := spec_c1_amended "echo \x7b\x7d \x7b\x7d" ["a", "b", "c"] 2
    (by decide) (by decide) (by decide) (by decide)
  rw [h]
  decide

/- ### The record store (`readCommands` / `writeCommands`) -/

/-- JSON values as produced by `JSON.parse` (numbers restricted to the
integers that appear in this tool's data). -/
inductive Json where
  | null
  | bool (b : Bool)
  | num (n : Int)
  | str (s : String)
  | arr (elems : List Json)
  | obj (fields : List (String × Json))

/-- JS truthiness of a parsed JSON value. -/
def jsTruthy : Json → Bool
  | .null => false
  | .bool b => b
  | .num n => n != 0
  | .str s => s != ""
  | .arr _ => true
  | .obj _ => true

/-- Property access `value.field`: a field of an object (with the later of
duplicate keys winning, as in `JSON.parse`), `undefined` (`none`) on every
other value. -/
def getField (j : Json) (name : String) : Option Json :=
  match j with
  | .obj fields => fields.reverse.lookup name
  | _ => none

/-- `v || dflt`: the value when truthy, the default otherwise (also when the
field was absent/undefined). -/
def jsOr (v : Option Json) (dflt : Json) : Json :=
  match v with
  | some x => if jsTruthy x then x else dflt
  | none => dflt

/-- A record as produced by the migration-friendly normalization in
`readCommands` (fields keep their dynamic JSON values). -/
structure RawCmd where
  id : Json
  «alias» : Json
  command : Json
  comment : Json

/-- One element of `commands.map((cmd, index) => ({...}))`:
`id: cmd.id || index + 1`, `alias: cmd.alias || false`,
`command: cmd.command || 'INVALID_COMMAND'`, `comment: cmd.comment || false`. -/
def normalizeCmd (index : Nat) (j : Json) : RawCmd :=
  { id := jsOr (getField j "id") (Json.num (Int.ofNat (index + 1)))
    «alias» := jsOr (getField j "alias") (Json.bool false)
    command := jsOr (getField j "command") (Json.str "INVALID_COMMAND")
    comment := jsOr (getField j "comment") (Json.bool false) }

/-- State of the backing `dumbcli.json` file as seen by `readCommands`:
absent, unreadable (the read itself throws), or present with some text. -/
inductive FileState where
  | absent
  | unreadable
  | present (content : String)

/-- The diagnostics `readCommands` can log while still returning an empty
list: a corrupt-store condition (unparsable JSON or a non-array document)
or a read failure. -/
inductive StoreReport where
  | corruptStore
  | readFailure
deriving Repr, DecidableEq

/-- `readCommands()`, parameterized by the `JSON.parse` oracle: an absent
file and whitespace-only content give an empty list without any report;
content that throws on parse, or parses to a non-array, gives an empty list
plus a corrupt-store report; an array is normalized element-wise.  The
function is total: no input crashes it. -/
def readCommandsModel (parse : String → Option Json) :
    FileState → List RawCmd × Option StoreReport
  | .absent => ([], none)
  | .unreadable => ([], some .readFailure)
  | .present content =>
    if jsTrim content = "" then ([], none)
    else
      match parse content with
      | none => ([], some .corruptStore)
      | some j =>
        match j with
        | .arr elems => (elems.enum.map (fun p => normalizeCmd p.1 p.2), none)
        | _ => ([], some .corruptStore)

/- ### Claim C5: load() degrades to an empty list, never crashes -/

/-- C5: for every backing-file content, `load()` returns an empty sequence
(with no report) when the file is absent or holds only whitespace; when the
content fails to parse, or parses to something other than a JSON array, it
reports a corrupt store and still returns the empty sequence — being a
total function of the file state, it never raises a fatal failure. -/
theorem spec_c5_load_defensive (parse : String → Option Json) :
    (readCommandsModel parse FileState.absent = ([], none)) ∧
    (∀ content, jsTrim content = "" →
      readCommandsModel parse (FileState.present content) = ([], none)) ∧
    (∀ content, jsTrim content ≠ "" → parse content = none →
      readCommandsModel parse (FileState.present content) =
        ([], some StoreReport.corruptStore)) ∧
    (∀ content j, jsTrim content ≠ "" → parse content = some j →
      (∀ elems, j ≠ Json.arr elems) →
      readCommandsModel parse (FileState.present content) =
        ([], some StoreReport.corruptStore)) := by
  refine ⟨rfl, ?_, ?_, ?_⟩
  · intro content h
    simp [readCommandsModel, h]
  · intro content h hp
    simp [readCommandsModel, h, hp]
  · intro content j h hp hne
    cases j with
    | arr elems => exact absurd rfl (hne elems)
    | null => simp [readCommandsModel, h, hp]
    | bool b => simp [readCommandsModel, h, hp]
    | num n => simp [readCommandsModel, h, hp]
    | str s => simp [readCommandsModel, h, hp]
    | obj fields => simp [readCommandsModel, h, hp]

/-- Witness for C5: unparsable content and a non-array document both load
as the empty list with a corrupt-store report. -/
theorem spec_c5_witness :
    (jsTrim "not json" ≠ "" ∧
     readCommandsModel (fun _ => none) (FileState.present "not json") =
       ([], some StoreReport.corruptStore)) ∧
    readCommandsModel (fun _ => some (Json.num 5)) (FileState.present "5") =
      ([], some StoreReport.corruptStore) := by
  refine ⟨⟨by decide, ?_⟩, ?_⟩
  · exact (spec_c5_load_defensive (fun _ => none)).2.2.1 "not json"
      (by decide) rfl
  · exact (spec_c5_load_defensive (fun _ => some (Json.num 5))).2.2.2 "5"
      (Json.num 5) (by decide) rfl (fun elems h => Json.noConfusion h)

/- ### Claim C9: persistence writes directly, no temp-and-rename -/

/-- Stable insertion of a record into a list sorted by ascending id
(equal ids keep their relative order, as JS `Array.prototype.sort` is
stable). -/
def insertById (c : Cmd) : List Cmd → List Cmd
  | [] => [c]
  | d :: ds => if c.id < d.id then c :: d :: ds else d :: insertById c ds

/-- The `commands.sort((a, b) => a.id - b.id)` step of `writeCommands`:
a stable ascending sort by id. -/
def sortById : List Cmd → List Cmd
  | [] => []
  | c :: cs => insertById c (sortById cs)

/-- Filesystem operations a persistence routine can issue. -/
inductive FsOp where
  | writeFile (path : String) (content : String)
  | rename (src dst : String)
deriving Repr, DecidableEq

/-- The trace of filesystem operations performed by `writeCommands`:
sort the records by id and overwrite the records file in place with a single
`fs.writeFileSync` (the serialization itself is abstracted as `render`).
Errors from the write are caught and logged, not rethrown. -/
def writeCommandsOps (render : List Cmd → String) (commandsFile : String)
    (commands : List Cmd) : List FsOp :=
  [FsOp.writeFile commandsFile (render (sortById commands))]

/-- C9 (code evaluation): every store write — and hence every mutating
operation — issues exactly one direct overwrite of the records file and
never performs a rename, so there is no temp-location-and-rename step and a
write interrupted midway can leave a partial file, contrary to the claim's
atomicity requirement (the non-fatal reporting half of the claim does hold:
the catch block only logs). -/
theorem spec_c9_direct_overwrite (render : List Cmd → String)
    (commandsFile : String) (commands : List Cmd) :
    writeCommandsOps render commandsFile commands =
      [FsOp.writeFile commandsFile (render (sortById commands))] ∧
    ∀ src dst,
      FsOp.rename src dst ∉ writeCommandsOps render commandsFile commands := by
  refine ⟨rfl, ?_⟩
  intro src dst hmem
  simp [writeCommandsOps] at hmem

/- ### The mutating operations as state transformers -/

/-- Alias syntax check `/\s|:/.test(value)` negated: no whitespace, no
colon. -/
def aliasShapeOk (a : String) : Bool :=
  !(a.data.any (fun ch => ch.isWhitespace || ch = ':'))

/-- The persisted state: the records file plus the counter file. -/
structure StoreState where
  records : List Cmd
  nextId : Int
deriving Repr, DecidableEq

/-- The record built by `handleAddCommand` from validated prompt answers:
`id` freshly minted from the counter, fields trimmed, empty alias and
comment collapsing to the `false` sentinel. -/
def createdRecord (s : StoreState) (commandIn aliasIn commentIn : String) :
    Cmd :=
  { id := s.nextId
    «alias» := if jsTrim aliasIn = "" then none else some (jsTrim aliasIn)
    command := jsTrim commandIn
    comment := if jsTrim commentIn = "" then none else some (jsTrim commentIn) }

/-- `handleAddCommand` success path: mint the next id (persisting the
incremented counter), push the record, and write the sorted records file. -/
def addCommand (s : StoreState) (commandIn aliasIn commentIn : String) :
    StoreState :=
  { records := sortById (s.records ++ [createdRecord s commandIn aliasIn commentIn])
    nextId := s.nextId + 1 }

/-- Edit of the command text: a non-blank trimmed input differing from the
current value replaces it; anything else keeps it. -/
def applyEditCommandField (cmd : Cmd) (input : String) : String × Bool :=
  let updated := jsTrim input
  if updated ≠ "" ∧ updated ≠ cmd.command then (updated, true)
  else (cmd.command, false)

/-- Edit of the alias: a single space clears it (marking a change only when
it was set), a non-blank trimmed input differing from the current value
replaces it, anything else keeps it. -/
def applyEditAlias (cmd : Cmd) (input : String) : Option String × Bool :=
  if input = " " then
    if cmd.«alias» ≠ none then (none, true) else (cmd.«alias», false)
  else if jsTrim input ≠ "" ∧ jsTrim input ≠ cmd.«alias».getD "" then
    (some (jsTrim input), true)
  else (cmd.«alias», false)

/-- Edit of the comment, with the same three-state semantics as the alias. -/
def applyEditComment (cmd : Cmd) (input : String) : Option String × Bool :=
  if input = " " then
    if cmd.comment ≠ none then (none, true) else (cmd.comment, false)
  else if jsTrim input ≠ "" ∧ jsTrim input ≠ cmd.comment.getD "" then
    (some (jsTrim input), true)
  else (cmd.comment, false)

/-- `handleEditCommand`: resolve the target; when nothing changed, or the
final alias fails the last-minute uniqueness check (against the already
mutated array, excluding the record's own id), leave the persisted state
untouched; otherwise write the updated record set. The id is never
changed. -/
def editCommand (s : StoreState) (spec newCommand newAlias newComment : String) :
    StoreState :=
  match findCommandByIdOrAlias spec s.records with
  | none => s
  | some (cmd, i) =>
    let pc := applyEditCommandField cmd newCommand
    let pa := applyEditAlias cmd newAlias
    let pm := applyEditComment cmd newComment
    let newCmd : Cmd :=
      { id := cmd.id, «alias» := pa.1, command := pc.1, comment := pm.1 }
    if pc.2 || pa.2 || pm.2 then
      match pa.1 with
      | some a =>
        if a ≠ "" ∧ isAliasUnique a (s.records.set i newCmd) (some cmd.id) = false
        then s
        else { records := sortById (s.records.set i newCmd), nextId := s.nextId }
      | none => { records := sortById (s.records.set i newCmd), nextId := s.nextId }
    else s

/-- `handleDeleteCommand` confirmed path: resolve the target, splice it out,
write the sorted records file. -/
def deleteCommand (s : StoreState) (spec : String) : StoreState :=
  match findCommandByIdOrAlias spec s.records with
  | none => s
  | some (_, i) =>
    { records := sortById (s.records.eraseIdx i), nextId := s.nextId }

/- ### Import -/

/-- Value of one optional text field of an import-file entry: missing (or
null), the JSON `false` sentinel the exporter writes, or a string.  The
distinction matters because optional chaining (`?.`) only guards the first
two JS shapes against the method calls that follow. -/
inductive ImpVal where
  | absent
  | falseVal
  | strVal (s : String)
deriving Repr, DecidableEq

/-- An entry of the imported JSON array (fields restricted to the shapes the
tool itself reads and writes). -/
structure ImpEntry where
  command : ImpVal
  «alias» : ImpVal
  comment : ImpVal
deriving Repr, DecidableEq

/-- The import validity filter `cmd && typeof cmd.command === 'string'`. -/
def isStrVal : ImpVal → Bool
  | .strVal _ => true
  | _ => false

/-- The string carried by a `strVal` (only ever read after the filter). -/
def impCommandStr : ImpVal → String
  | .strVal s => s
  | _ => ""

/-- The lowercased non-empty aliases of a record list, as computed by
`recs.map(cmd => cmd.alias?.toLowerCase()).filter(Boolean)` when it does
not throw. -/
def aliasesLowerPure (recs : List Cmd) : List String :=
  (recs.map (fun c => jsToLower (c.«alias».getD ""))).filter (fun t => t ≠ "")

/-- `recs.map(cmd => cmd.alias?.toLowerCase()).filter(Boolean)` itself:
optional chaining does not guard the `false` sentinel, so the map throws a
TypeError (`none` here) as soon as any record has no alias; otherwise it
yields the lowercased non-empty aliases. -/
def aliasesLowerChecked (recs : List Cmd) : Option (List String) :=
  if recs.all (fun c => c.«alias».isSome) then some (aliasesLowerPure recs)
  else none

/-- `impCmd.comment?.trim() || false`: absent/null gives the `false`
sentinel, a string is trimmed (blank collapsing to `false`), and the
exporter's own `comment: false` makes the call throw (`none`). -/
def impComment : ImpVal → Option (Option String)
  | .absent => some none
  | .falseVal => none
  | .strVal s => some (if jsTrim s = "" then none else some (jsTrim s))

/-- Append-mode alias assignment for one imported entry: a falsy alias is
skipped; otherwise the lowercased aliases of everything written so far are
computed (which may throw, see `aliasesLowerChecked`), and the trimmed alias
is kept only when syntactically valid and not already taken. -/
def impAliasAppend (acc : List Cmd) : ImpVal → Option (Option String)
  | .absent => some none
  | .falseVal => some none
  | .strVal s =>
    if s = "" then some none
    else
      match aliasesLowerChecked acc with
      | none => none
      | some lowers =>
        if aliasShapeOk (jsTrim s) = true ∧
            ¬ lowers.contains (jsToLower (jsTrim s)) = true then
          some (some (jsTrim s))
        else some none

/-- The append-mode `forEach` over the valid imported entries: each entry
gets a fresh sequential id; a comment or alias step that throws aborts the
whole import with nothing written (`none`). -/
def importAppendGo (acc : List Cmd) (nid : Int) :
    List ImpEntry → Option (List Cmd × Int)
  | [] => some (acc, nid)
  | e :: es =>
    match impComment e.comment with
    | none => none
    | some co =>
      match impAliasAppend acc e.«alias» with
      | none => none
      | some al =>
        importAppendGo
          (acc ++ [{ id := nid, «alias» := al,
                     command := jsTrim (impCommandStr e.command),
                     comment := co }])
          (nid + 1) es

/-- `maxCurrentId` as computed in `handleImportCommand` (fold from 0). -/
def maxCurrentId (recs : List Cmd) : Int :=
  recs.foldl (fun m c => if c.id ≥ m then c.id else m) 0

/-- The counter value used for freshly minted import ids: the stored
`nextId`, advanced past the maximum existing id when it lags behind. -/
def importAdvanceId (s : StoreState) : Int :=
  if s.nextId ≤ maxCurrentId s.records then maxCurrentId s.records + 1
  else s.nextId

/-- `handleImportCommand` in append mode: keep the existing records, filter
the entries to those whose command field is a string (empty allowed), stop
with no mutation when none remain, evaluate the (dead but crash-relevant)
existing-aliases map, then run the batch; on success persist the new counter
and the sorted combined record list.  `none` models the TypeError crash
paths, which write nothing. -/
def importAppendOp (s : StoreState) (entries : List ImpEntry) :
    Option StoreState :=
  let valid := entries.filter (fun e => isStrVal e.command)
  if valid.isEmpty then some s
  else
    match aliasesLowerChecked s.records with
    | none => none
    | some _ =>
      match importAppendGo s.records (importAdvanceId s) valid with
      | none => none
      | some (recs, nidF) => some { records := sortById recs, nextId := nidF }

/-- Replace-mode `forEach`: fresh sequential ids, alias dedup against a set
of lowercased aliases already assigned within the batch only; the comment
step can still throw on the exporter's `false` sentinel. -/
def importReplaceGo (acc : List Cmd) (seen : List String) (nid : Int) :
    List ImpEntry → Option (List Cmd × Int)
  | [] => some (acc, nid)
  | e :: es =>
    match impComment e.comment with
    | none => none
    | some co =>
      let ar : Option String × List String :=
        match e.«alias» with
        | .absent => (none, seen)
        | .falseVal => (none, seen)
        | .strVal s =>
          if s = "" then (none, seen)
          else if aliasShapeOk (jsTrim s) = true ∧
              ¬ seen.contains (jsToLower (jsTrim s)) = true then
            (some (jsTrim s), seen ++ [jsToLower (jsTrim s)])
          else (none, seen)
      importReplaceGo
        (acc ++ [{ id := nid, «alias» := ar.1,
                   command := jsTrim (impCommandStr e.command),
                   comment := co }])
        ar.2 (nid + 1) es

/-- `handleImportCommand` in confirmed replace mode: the old record set is
discarded, entries re-keyed from the advanced counter. -/
def importReplaceOp (s : StoreState) (entries : List ImpEntry) :
    Option StoreState :=
  let valid := entries.filter (fun e => isStrVal e.command)
  if valid.isEmpty then some s
  else
    match importReplaceGo [] [] (importAdvanceId s) valid with
    | none => none
    | some (recs, nidF) => some { records := sortById recs, nextId := nidF }

/-- One persisted-state transition: an interactive or power-syntax add with
validated inputs, an edit, a confirmed delete, or a completed import in
either mode.  Cancelled prompts and crashed imports leave the state as it
was and need no step. -/
inductive Step : StoreState → StoreState → Prop where
  | add (s : StoreState) (commandIn aliasIn commentIn : String)
      (hcmd : jsTrim commandIn ≠ "")
      (halias : aliasIn = "" ∨ (aliasShapeOk aliasIn = true ∧
        isAliasUnique (jsTrim aliasIn) s.records none = true)) :
      Step s (addCommand s commandIn aliasIn commentIn)
  | edit (s : StoreState) (spec newCommand newAlias newComment : String) :
      Step s (editCommand s spec newCommand newAlias newComment)
  | del (s : StoreState) (spec : String) : Step s (deleteCommand s spec)
  | importAppend (s : StoreState) (entries : List ImpEntry) (t : StoreState)
      (h : importAppendOp s entries = some t) : Step s t
  | importReplace (s : StoreState) (entries : List ImpEntry) (t : StoreState)
      (h : importReplaceOp s entries = some t) : Step s t

/-- Persisted states reachable from the initial state (no files yet: empty
record list, counter at its lazy default 1). -/
inductive Reachable : StoreState → Prop where
  | init : Reachable ⟨[], 1⟩
  | step {s t : StoreState} : Reachable s → Step s t → Reachable t

/- ### Lemmas about sorting and the import batch -/

theorem mem_insertById {a c : Cmd} {l : List Cmd} :
    a ∈ insertById c l ↔ a = c ∨ a ∈ l := by
  induction l with
  | nil => simp [insertById]
  | cons d ds ih =>
    rw [insertById]
    by_cases h : c.id < d.id
    · rw [if_pos h]
      simp [List.mem_cons]
    · rw [if_neg h]
      simp [List.mem_cons, ih]
      tauto

theorem mem_sortById {a : Cmd} {l : List Cmd} : a ∈ sortById l ↔ a ∈ l := by
  induction l with
  | nil => simp [sortById]
  | cons c cs ih =>
    rw [sortById, mem_insertById]
    simp [ih, List.mem_cons]

theorem length_insertById (c : Cmd) (l : List Cmd) :
    (insertById c l).length = l.length + 1 := by
  induction l with
  | nil => rfl
  | cons d ds ih =>
    rw [insertById]
    by_cases h : c.id < d.id
    · rw [if_pos h]
      simp
    · rw [if_neg h]
      simp [ih]

theorem length_sortById (l : List Cmd) : (sortById l).length = l.length := by
  induction l with
  | nil => rfl
  | cons c cs ih =>
    rw [sortById, length_insertById, ih]
    rfl

/-- A record cannot resolve to both outcomes: helper tying the resolver
result to membership. -/
theorem findCommand_mem {sp : String} {recs : List Cmd} {cmd : Cmd} {i : Nat}
    (h : findCommandByIdOrAlias sp recs = some (cmd, i)) : cmd ∈ recs :=
  findAux_mem _ _ recs 0 cmd i h

/-- Alias assignment an imported entry would receive given the records
written so far, stated as a total reference function (agrees with
`impAliasAppend` whenever the latter does not throw). -/
def refAlias (acc : List Cmd) : ImpVal → Option String
  | .strVal s =>
    if s ≠ "" ∧ aliasShapeOk (jsTrim s) = true ∧
        ¬ (aliasesLowerPure acc).contains (jsToLower (jsTrim s)) = true then
      some (jsTrim s)
    else none
  | _ => none

/-- Comment an imported entry receives (agrees with `impComment` whenever
the latter does not throw). -/
def refComment : ImpVal → Option String
  | .strVal s => if jsTrim s = "" then none else some (jsTrim s)
  | _ => none

/-- The records appended by a non-crashing append-mode batch, as a total
function: one record per entry, sequential ids, alias resolved against the
existing set plus the batch records created earlier. -/
def importBatchRef (acc : List Cmd) (nid : Int) : List ImpEntry → List Cmd
  | [] => []
  | e :: es =>
    let c0 : Cmd :=
      { id := nid, «alias» := refAlias acc e.«alias»,
        command := jsTrim (impCommandStr e.command),
        comment := refComment e.comment }
    c0 :: importBatchRef (acc ++ [c0]) (nid + 1) es

theorem impComment_some {v : ImpVal} {co : Option String}
    (h : impComment v = some co) : co = refComment v := by
  cases v with
  | absent =>
    simp only [impComment, Option.some.injEq] at h
    simp [refComment, ← h]
  | falseVal => exact Option.noConfusion h
  | strVal s =>
    simp only [impComment, Option.some.injEq] at h
    simp [refComment, ← h]

theorem impAliasAppend_some {acc : List Cmd} {v : ImpVal} {al : Option String}
    (h : impAliasAppend acc v = some al) : al = refAlias acc v := by
  cases v with
  | absent =>
    simp only [impAliasAppend, Option.some.injEq] at h
    simp [refAlias, ← h]
  | falseVal =>
    simp only [impAliasAppend, Option.some.injEq] at h
    simp [refAlias, ← h]
  | strVal s =>
    rw [impAliasAppend] at h
    by_cases hs : s = ""
    · rw [if_pos hs] at h
      injection h with h2
      rw [refAlias, if_neg (by simp [hs])]
      exact h2.symm
    · rw [if_neg hs] at h
      cases hch : aliasesLowerChecked acc with
      | none => simp [hch] at h
      | some lowers =>
        have hl : lowers = aliasesLowerPure acc := by
          rw [aliasesLowerChecked] at hch
          by_cases hall : acc.all (fun c => c.«alias».isSome) = true
          · rw [if_pos hall] at hch
            injection hch with h3
            exact h3.symm
          · rw [if_neg hall] at hch
            exact Option.noConfusion hch
        simp only [hch] at h
        rw [hl] at h
        by_cases hcond : aliasShapeOk (jsTrim s) = true ∧
            ¬ (aliasesLowerPure acc).contains (jsToLower (jsTrim s)) = true
        · rw [if_pos hcond] at h
          injection h with h2
          rw [refAlias, if_pos ⟨hs, hcond.1, hcond.2⟩]
          exact h2.symm
        · rw [if_neg hcond] at h
          injection h with h2
          rw [refAlias, if_neg (fun hc => hcond ⟨hc.2.1, hc.2.2⟩)]
          exact h2.symm

theorem importAppendGo_eq_ref :
    ∀ (es : List ImpEntry) (acc : List Cmd) (nid : Int)
      (res : List Cmd) (nidF : Int),
    importAppendGo acc nid es = some (res, nidF) →
    res = acc ++ importBatchRef acc nid es ∧ nidF = nid + es.length := by
  intro es
  induction es with
  | nil =>
    intro acc nid res nidF h
    simp only [importAppendGo, Option.some.injEq, Prod.mk.injEq] at h
    refine ⟨?_, ?_⟩ <;> simp [importBatchRef, ← h.1, ← h.2]
  | cons e es ih =>
    intro acc nid res nidF h
    cases hco : impComment e.comment with
    | none => simp [importAppendGo, hco] at h
    | some co =>
      cases hal : impAliasAppend acc e.«alias» with
      | none => simp [importAppendGo, hco, hal] at h
      | some al =>
        simp only [importAppendGo, hco, hal] at h
        have hco2 := impComment_some hco
        have hal2 := impAliasAppend_some hal
        subst hco2
        subst hal2
        obtain ⟨h1, h2⟩ := ih _ _ _ _ h
        constructor
        · rw [h1, importBatchRef]
          simp [List.append_assoc]
        · rw [h2]
          simp only [List.length_cons]
          push_cast
          omega

theorem importBatchRef_length :
    ∀ (es : List ImpEntry) (acc : List Cmd) (nid : Int),
    (importBatchRef acc nid es).length = es.length := by
  intro es
  induction es with
  | nil => intro acc nid; rfl
  | cons e es ih =>
    intro acc nid
    rw [importBatchRef]
    simp [ih]

theorem importBatchRef_id_bounds :
    ∀ (es : List ImpEntry) (acc : List Cmd) (nid : Int) (c : Cmd),
    c ∈ importBatchRef acc nid es →
    nid ≤ c.id ∧ c.id < nid + es.length := by
  intro es
  induction es with
  | nil => intro acc nid c hc; simp [importBatchRef] at hc
  | cons e es ih =>
    intro acc nid c hc
    rw [importBatchRef] at hc
    rcases List.mem_cons.mp hc with heq | hmem
    · rw [heq]
      simp only [List.length_cons]
      push_cast
      omega
    · have := ih _ _ _ hmem
      simp only [List.length_cons]
      push_cast
      push_cast at this
      omega

theorem importReplaceGo_bounds :
    ∀ (es : List ImpEntry) (acc : List Cmd) (seen : List String) (nid : Int)
      (res : List Cmd) (nidF : Int),
    importReplaceGo acc seen nid es = some (res, nidF) →
    nidF = nid + es.length ∧
    ∀ c ∈ res, c ∈ acc ∨ (nid ≤ c.id ∧ c.id < nid + es.length) := by
  intro es
  induction es with
  | nil =>
    intro acc seen nid res nidF h
    simp only [importReplaceGo, Option.some.injEq, Prod.mk.injEq] at h
    refine ⟨by simp [← h.2], ?_⟩
    intro c hc
    rw [← h.1] at hc
    exact Or.inl hc
  | cons e es ih =>
    intro acc seen nid res nidF h
    cases hco : impComment e.comment with
    | none => simp [importReplaceGo, hco] at h
    | some co =>
      simp only [importReplaceGo, hco] at h
      obtain ⟨h1, h2⟩ := ih _ _ _ _ _ h
      constructor
      · rw [h1]
        simp only [List.length_cons]
        push_cast
        omega
      · intro c hc
        rcases h2 c hc with hmem | hbound
        · rcases List.mem_append.mp hmem with h3 | h3
          · exact Or.inl h3
          · right
            have hid : c.id = nid := by
              rw [List.mem_singleton] at h3
              rw [h3]
            simp only [List.length_cons]
            push_cast
            omega
        · right
          simp only [List.length_cons]
          push_cast
          omega

theorem importAdvanceId_ge (s : StoreState) : s.nextId ≤ importAdvanceId s := by
  rw [importAdvanceId]
  by_cases h : s.nextId ≤ maxCurrentId s.records
  · rw [if_pos h]
    omega
  · rw [if_neg h]

theorem editCommand_shape (s : StoreState) (sp a b m : String) :
    (editCommand s sp a b m).nextId = s.nextId ∧
    ∀ c ∈ (editCommand s sp a b m).records,
      c ∈ s.records ∨ ∃ d ∈ s.records, c.id = d.id := by
  rw [editCommand]
  cases hf : findCommandByIdOrAlias sp s.records with
  | none => exact ⟨rfl, fun c hc => Or.inl hc⟩
  | some pr =>
    rcases pr with ⟨cmd, i⟩
    have hcmdmem : cmd ∈ s.records := findCommand_mem hf
    dsimp only
    constructor
    · split
      · split
        · split
          · rfl
          · rfl
        · rfl
      · rfl
    · intro c
      split
      · split
        · split
          · exact fun hc => Or.inl hc
          · intro hc
            simp only at hc
            rcases List.mem_or_eq_of_mem_set (mem_sortById.mp hc) with hmem | heq
            · exact Or.inl hmem
            · exact Or.inr ⟨cmd, hcmdmem, by rw [heq]⟩
        · intro hc
          simp only at hc
          rcases List.mem_or_eq_of_mem_set (mem_sortById.mp hc) with hmem | heq
          · exact Or.inl hmem
          · exact Or.inr ⟨cmd, hcmdmem, by rw [heq]⟩
      · exact fun hc => Or.inl hc

theorem deleteCommand_shape (s : StoreState) (sp : String) :
    (deleteCommand s sp).nextId = s.nextId ∧
    ∀ c ∈ (deleteCommand s sp).records, c ∈ s.records := by
  rw [deleteCommand]
  cases hf : findCommandByIdOrAlias sp s.records with
  | none => exact ⟨rfl, fun c hc => hc⟩
  | some pr =>
    rcases pr with ⟨cmd, i⟩
    dsimp only
    exact ⟨rfl, fun c hc =>
      List.mem_of_mem_eraseIdx (mem_sortById.mp hc)⟩

theorem importAppendOp_cases {s t : StoreState} {entries : List ImpEntry}
    (h : importAppendOp s entries = some t) :
    t = s ∨
    ∃ nidF, t.records =
        sortById (s.records ++ importBatchRef s.records (importAdvanceId s)
          (entries.filter (fun e => isStrVal e.command))) ∧
      t.nextId = importAdvanceId s +
        (entries.filter (fun e => isStrVal e.command)).length ∧
      t.nextId = nidF := by
  rw [importAppendOp] at h
  by_cases hempty : (entries.filter (fun e => isStrVal e.command)).isEmpty
  · rw [if_pos hempty] at h
    exact Or.inl (Option.some.inj h).symm
  · rw [if_neg hempty] at h
    cases hch : aliasesLowerChecked s.records with
    | none => simp [hch] at h
    | some lowers =>
      simp only [hch] at h
      cases hgo : importAppendGo s.records (importAdvanceId s)
          (entries.filter (fun e => isStrVal e.command)) with
      | none => simp [hgo] at h
      | some pr =>
        rcases pr with ⟨res, nidF⟩
        simp only [hgo] at h
        obtain ⟨h1, h2⟩ := importAppendGo_eq_ref _ _ _ _ _ hgo
        right
        refine ⟨nidF, ?_, ?_, ?_⟩
        · rw [← (Option.some.inj h), ← h1]
        · rw [← (Option.some.inj h), h2]
        · rw [← (Option.some.inj h)]

theorem importReplaceOp_cases {s t : StoreState} {entries : List ImpEntry}
    (h : importReplaceOp s entries = some t) :
    t = s ∨
    ∃ res nidF, importReplaceGo [] [] (importAdvanceId s)
        (entries.filter (fun e => isStrVal e.command)) = some (res, nidF) ∧
      t.records = sortById res ∧ t.nextId = nidF := by
  rw [importReplaceOp] at h
  by_cases hempty : (entries.filter (fun e => isStrVal e.command)).isEmpty
  · rw [if_pos hempty] at h
    exact Or.inl (Option.some.inj h).symm
  · rw [if_neg hempty] at h
    cases hgo : importReplaceGo [] [] (importAdvanceId s)
        (entries.filter (fun e => isStrVal e.command)) with
    | none => simp [hgo] at h
    | some pr =>
      rcases pr with ⟨res, nidF⟩
      simp only [hgo] at h
      right
      exact ⟨res, nidF, rfl, by rw [← (Option.some.inj h)],
        by rw [← (Option.some.inj h)]⟩

/- ### Claim C6: the counter invariant -/

/-- C6: in every reachable persisted state the counter strictly dominates
the id of every stored record (equivalently, it exceeds the maximum stored
id), and every operation — add, edit, delete, and both import modes — is
monotone on the counter; import in particular advances the counter past the
observed maximum before minting ids. -/
theorem spec_c6_counter_invariant :
    (∀ s, Reachable s → ∀ c ∈ s.records, c.id < s.nextId) ∧
    (∀ s t, Step s t → s.nextId ≤ t.nextId) := by
  have hmono : ∀ s t, Step s t → s.nextId ≤ t.nextId := by
    intro s t hst
    cases hst with
    | add cIn aIn mIn hcmd halias =>
      simp only [addCommand]
      omega
    | edit sp a b m =>
      rw [(editCommand_shape s sp a b m).1]
    | del sp =>
      rw [(deleteCommand_shape s sp).1]
    | importAppend entries tgt hop =>
      rcases importAppendOp_cases hop with heq | ⟨nidF, _, h2, _⟩
      · rw [heq]
      · rw [h2]
        have := importAdvanceId_ge s
        have hlen : 0 ≤ ((entries.filter (fun e => isStrVal e.command)).length : Int) :=
          Int.ofNat_nonneg _
        omega
    | importReplace entries tgt hop =>
      rcases importReplaceOp_cases hop with heq | ⟨res, nidF, hgo, _, h3⟩
      · rw [heq]
      · obtain ⟨h4, _⟩ := importReplaceGo_bounds _ _ _ _ _ _ hgo
        rw [h3, h4]
        have := importAdvanceId_ge s
        have hlen : 0 ≤ ((entries.filter (fun e => isStrVal e.command)).length : Int) :=
          Int.ofNat_nonneg _
        omega
  have hpres : ∀ s t, Step s t → (∀ c ∈ s.records, c.id < s.nextId) →
      (∀ c ∈ t.records, c.id < t.nextId) := by
    intro s t hst hinv
    cases hst with
    | add cIn aIn mIn hcmd halias =>
      intro c hc
      simp only [addCommand] at hc ⊢
      rcases List.mem_append.mp (mem_sortById.mp hc) with hmem | hnew
      · have := hinv c hmem
        omega
      · rw [List.mem_singleton] at hnew
        rw [hnew]
        simp only [createdRecord]
        omega
    | edit sp a b m =>
      intro c hc
      rw [(editCommand_shape s sp a b m).1]
      rcases (editCommand_shape s sp a b m).2 c hc with hmem | ⟨d, hd, hid⟩
      · exact hinv c hmem
      · rw [hid]
        exact hinv d hd
    | del sp =>
      intro c hc
      rw [(deleteCommand_shape s sp).1]
      exact hinv c ((deleteCommand_shape s sp).2 c hc)
    | importAppend entries tgt hop =>
      intro c hc
      rcases importAppendOp_cases hop with heq | ⟨nidF, h1, h2, _⟩
      · rw [heq] at hc ⊢
        exact hinv c hc
      · rw [h1] at hc
        rw [h2]
        have hadv := importAdvanceId_ge s
        rcases List.mem_append.mp (mem_sortById.mp hc) with hmem | hbatch
        · have := hinv c hmem
          omega
        · have hb := importBatchRef_id_bounds _ _ _ _ hbatch
          omega
    | importReplace entries tgt hop =>
      intro c hc
      rcases importReplaceOp_cases hop with heq | ⟨res, nidF, hgo, h2, h3⟩
      · rw [heq] at hc ⊢
        exact hinv c hc
      · obtain ⟨h4, h5⟩ := importReplaceGo_bounds _ _ _ _ _ _ hgo
        rw [h2] at hc
        rw [h3, h4]
        rcases h5 c (mem_sortById.mp hc) with hmem | hbound
        · exact absurd hmem (List.not_mem_nil c)
        · omega
  constructor
  · intro s hreach
    induction hreach with
    | init => intro c hc; exact absurd hc (List.not_mem_nil c)
    | step hr hst ih => exact hpres _ _ hst ih
  · exact hmono

/-- Witness for C6: the invariant holds at the initial state, and a concrete
add step is counter-monotone. -/
theorem spec_c6_witness :
    (∀ c ∈ (StoreState.mk [] 1).records, c.id < (StoreState.mk [] 1).nextId) ∧
    (StoreState.mk [] 1).nextId ≤ (addCommand ⟨[], 1⟩ "ls -la" "" "").nextId := by
  constructor
  · exact spec_c6_counter_invariant.1 ⟨[], 1⟩ Reachable.init
  · exact spec_c6_counter_invariant.2 ⟨[], 1⟩ _
      (Step.add ⟨[], 1⟩ "ls -la" "" "" (by decide) (Or.inl rfl))

/-- Default record for index-based statements. -/
def dCmd : Cmd := ⟨0, none, "", none⟩

/-- Default entry for index-based statements. -/
def dEntry : ImpEntry := ⟨ImpVal.absent, ImpVal.absent, ImpVal.absent⟩

/-- The entries `handleImportCommand` keeps after the validity filter. -/
def importValidEntries (entries : List ImpEntry) : List ImpEntry :=
  entries.filter (fun e => isStrVal e.command)

/-- The records a non-crashing append-mode import adds to the store. -/
def importBatchOf (s : StoreState) (entries : List ImpEntry) : List Cmd :=
  importBatchRef s.records (importAdvanceId s) (importValidEntries entries)

theorem importBatchRef_cons (acc : List Cmd) (nid : Int) (e : ImpEntry)
    (es : List ImpEntry) :
    importBatchRef acc nid (e :: es) =
      Cmd.mk nid (refAlias acc e.«alias») (jsTrim (impCommandStr e.command))
        (refComment e.comment) ::
      importBatchRef
        (acc ++ [Cmd.mk nid (refAlias acc e.«alias»)
          (jsTrim (impCommandStr e.command)) (refComment e.comment)])
        (nid + 1) es := rfl

theorem mem_aliasesLowerPure {recs : List Cmd} {x : String} :
    x ∈ aliasesLowerPure recs ↔
    ∃ c, c ∈ recs ∧ ∃ t, c.«alias» = some t ∧ jsToLower t ≠ "" ∧
      jsToLower t = x := by
  rw [aliasesLowerPure]
  rw [List.mem_filter]
  simp only [List.mem_map, decide_eq_true_eq]
  constructor
  · intro ⟨⟨c, hc, hf⟩, hx⟩
    cases hal : c.«alias» with
    | none =>
      exfalso
      rw [hal] at hf
      simp only [Option.getD_none] at hf
      apply hx
      rw [← hf]
      rfl
    | some t =>
      rw [hal] at hf
      simp only [Option.getD_some] at hf
      exact ⟨c, hc, t, hal, by rw [hf]; exact hx, hf⟩
  · intro ⟨c, hc, t, hsome, hne, hx⟩
    refine ⟨⟨c, hc, ?_⟩, by rw [← hx]; exact hne⟩
    rw [hsome]
    simp only [Option.getD_some]
    exact hx

theorem importBatchRef_getD :
    ∀ (es : List ImpEntry) (acc : List Cmd) (nid : Int) (j : Nat),
    j < es.length →
    (importBatchRef acc nid es).getD j dCmd =
      { id := nid + j,
        «alias» := refAlias (acc ++ (importBatchRef acc nid es).take j)
          ((es.getD j dEntry).«alias»),
        command := jsTrim (impCommandStr ((es.getD j dEntry).command)),
        comment := refComment ((es.getD j dEntry).comment) } := by
  intro es
  induction es with
  | nil => intro acc nid j hj; exact absurd hj (Nat.not_lt_zero j)
  | cons e es ih =>
    intro acc nid j hj
    rw [importBatchRef_cons]
    cases j with
    | zero =>
      simp [Cmd.mk.injEq]
    | succ j0 =>
      simp only [List.getD_cons_succ, List.take_succ_cons]
      rw [ih _ (nid + 1) j0 (Nat.lt_of_succ_lt_succ hj)]
      have hid : nid + 1 + (j0 : Int) = nid + ((j0 + 1 : Nat) : Int) := by
        push_cast
        ring
      simp [Cmd.mk.injEq, hid, List.append_assoc]

theorem contains_eq_true_of_mem {l : List String} {x : String} (h : x ∈ l) :
    l.contains x = true :=
  List.contains_iff_exists_mem_beq.mpr ⟨x, h, by simp⟩

theorem mem_of_contains_eq_true {l : List String} {x : String}
    (h : l.contains x = true) : x ∈ l := by
  rcases List.contains_iff_exists_mem_beq.mp h with ⟨b, hb, hbeq⟩
  rw [show x = b from by simpa using hbeq]
  exact hb

theorem refAlias_some_iff (acc : List Cmd) (v : ImpVal) (p : String) :
    refAlias acc v = some p ↔
    ∃ a, v = ImpVal.strVal a ∧ a ≠ "" ∧ p = jsTrim a ∧
      aliasShapeOk p = true ∧
      ¬ ∃ c, c ∈ acc ∧ ∃ tl, c.«alias» = some tl ∧ jsToLower tl ≠ "" ∧
        jsToLower tl = jsToLower p := by
  cases v with
  | absent => simp [refAlias]
  | falseVal => simp [refAlias]
  | strVal a =>
    rw [refAlias]
    by_cases hcond : a ≠ "" ∧ aliasShapeOk (jsTrim a) = true ∧
        ¬ (aliasesLowerPure acc).contains (jsToLower (jsTrim a)) = true
    · rw [if_pos hcond]
      constructor
      · intro h
        injection h with h2
        subst h2
        refine ⟨a, rfl, hcond.1, rfl, hcond.2.1, ?_⟩
        intro ⟨c, hc, tl, hsome, hne2, hlow⟩
        apply hcond.2.2
        exact contains_eq_true_of_mem
          (mem_aliasesLowerPure.mpr ⟨c, hc, tl, hsome, hne2, hlow⟩)
      · intro ⟨a2, ha2, hne2, hp, hshape, hnc⟩
        injection ha2 with h2
        subst h2
        rw [hp]
    · rw [if_neg hcond]
      constructor
      · intro h
        exact Option.noConfusion h
      · intro ⟨a2, ha2, hne2, hp, hshape, hnc⟩
        exfalso
        injection ha2 with h2
        subst h2
        apply hcond
        refine ⟨hne2, by rw [← hp]; exact hshape, ?_⟩
        intro hcont
        apply hnc
        rcases mem_aliasesLowerPure.mp (mem_of_contains_eq_true hcont)
          with ⟨c, hc, tl, hsome, hne3, hlow⟩
        exact ⟨c, hc, tl, hsome, hne3, by rw [hlow, hp]⟩

/- ### Claim C7: append-mode import -/

/-- C7 counterexample: the claim counts as valid only entries with a
non-empty command field, but the code's filter keeps any entry whose
command field is a string — importing the single entry with the empty
command string into an empty store adds one record, where the claim
predicts zero valid entries and no growth. -/
theorem spec_c7_counterexample :
    (importAppendOp ⟨[], 1⟩
        [⟨ImpVal.strVal "", ImpVal.absent, ImpVal.absent⟩]).map
      (fun t => t.records.length) = some 1 ∧
    (([⟨ImpVal.strVal "", ImpVal.absent, ImpVal.absent⟩] : List ImpEntry).filter
      (fun e => match e.command with
        | ImpVal.strVal s => s != ""
        | _ => false)).length = 0 := by
  constructor
  · decide
  · decide

/-- C7 (amended): for every append-mode import that completes — at least
one entry passes the validity filter (command field present as a string,
empty allowed) and no step throws a TypeError (the alias bookkeeping
throws when a scanned record carries the `false` alias sentinel, and the
comment step throws on a `false` comment field) — every valid entry is
added with a freshly minted sequential id, so the record count grows by
exactly the number of valid entries; an imported alias is kept iff it is a
non-empty string whose trimmed form is syntactically valid (no whitespace
or colon) and does not collide case-insensitively with any non-empty alias
of the existing records or of the records appended earlier in the same
batch; otherwise the alias is dropped while the record is still imported. -/
theorem spec_c7_amended (s : StoreState) (entries : List ImpEntry)
    (t : StoreState)
    (hne : importValidEntries entries ≠ [])
    (hsucc : importAppendOp s entries = some t) :
    t.records.length = s.records.length + (importValidEntries entries).length ∧
    t.nextId = importAdvanceId s + (importValidEntries entries).length ∧
    (∀ c ∈ t.records, c ∈ s.records ∨ c ∈ importBatchOf s entries) ∧
    (importBatchOf s entries).length = (importValidEntries entries).length ∧
    (∀ j, j < (importValidEntries entries).length →
      ((importBatchOf s entries).getD j dCmd).id = importAdvanceId s + j ∧
      ((importBatchOf s entries).getD j dCmd).command =
        jsTrim (impCommandStr
          (((importValidEntries entries).getD j dEntry).command)) ∧
      ∀ p, ((importBatchOf s entries).getD j dCmd).«alias» = some p ↔
        ∃ a, ((importValidEntries entries).getD j dEntry).«alias» =
            ImpVal.strVal a ∧ a ≠ "" ∧ p = jsTrim a ∧
          aliasShapeOk p = true ∧
          ¬ ∃ c, c ∈ s.records ++ (importBatchOf s entries).take j ∧
            ∃ tl, c.«alias» = some tl ∧ jsToLower tl ≠ "" ∧
              jsToLower tl = jsToLower p) := by
  simp only [importAppendOp] at hsucc
  rw [if_neg (by simpa [importValidEntries, List.isEmpty_iff] using hne)]
    at hsucc
  cases hch : aliasesLowerChecked s.records with
  | none => simp [hch] at hsucc
  | some lowers =>
    simp only [hch] at hsucc
    cases hgo : importAppendGo s.records (importAdvanceId s)
        (entries.filter (fun e => isStrVal e.command)) with
    | none => simp [hgo] at hsucc
    | some pr =>
      rcases pr with ⟨res, nidF⟩
      simp only [hgo] at hsucc
      obtain ⟨hres, hnid⟩ := importAppendGo_eq_ref _ _ _ _ _ hgo
      have ht : t = ⟨sortById res, nidF⟩ := (Option.some.inj hsucc).symm
      subst ht
      refine ⟨?_, ?_, ?_, ?_, ?_⟩
      · show (sortById res).length = _
        rw [length_sortById, hres, List.length_append, importBatchRef_length]
        rfl
      · show nidF = _
        rw [hnid]
        rfl
      · intro c hc
        have hm := mem_sortById.mp hc
        rw [hres] at hm
        rcases List.mem_append.mp hm with h1 | h1
        · exact Or.inl h1
        · exact Or.inr h1
      · rw [importBatchOf, importBatchRef_length]
      · intro j hj
        have hgetd := importBatchRef_getD (importValidEntries entries)
          s.records (importAdvanceId s) j hj
        refine ⟨?_, ?_, ?_⟩
        · rw [importBatchOf, hgetd]
        · rw [importBatchOf, hgetd]
        · intro p
          rw [importBatchOf, hgetd]
          exact refAlias_some_iff _ _ p

/-- Witness for the amended C7: importing one aliased entry into a
one-record store (the alias collides case-insensitively, so it is dropped)
grows the store from one record to two. -/
theorem spec_c7_amended_witness :
    (StoreState.mk
        [⟨1, some "web", "curl", none⟩, ⟨2, none, "ls", none⟩] 3).records.length =
      (StoreState.mk [⟨1, some "web", "curl", none⟩] 2).records.length +
      (importValidEntries
        [⟨ImpVal.strVal "ls", ImpVal.strVal "WEB", ImpVal.absent⟩]).length :=
  (spec_c7_amended ⟨[⟨1, some "web", "curl", none⟩], 2⟩
    [⟨ImpVal.strVal "ls", ImpVal.strVal "WEB", ImpVal.absent⟩]
    ⟨[⟨1, some "web", "curl", none⟩, ⟨2, none, "ls", none⟩], 3⟩
    (by decide) (by decide)).1

/- ### Claim C8: create then resolve -/

/-- C8 counterexample: in the reachable store holding record 1 with alias
`"2"` and counter 2, creating a record (which receives id 2) and then
resolving the specifier `"2"` returns the pre-existing record — the scan
hits its alias match before reaching the new record — not the created one,
so create-then-resolve(id) fails as universally stated. -/
theorem spec_c8_counterexample :
    findCommandByIdOrAlias "2"
      (addCommand ⟨[⟨1, some "2", "echo old", none⟩], 2⟩
        "echo new" "" "").records =
      some (⟨1, some "2", "echo old", none⟩, 0) ∧
    createdRecord ⟨[⟨1, some "2", "echo old", none⟩], 2⟩ "echo new" "" "" =
      ⟨2, none, "echo new", none⟩ ∧
    (⟨1, some "2", "echo old", none⟩ : Cmd) ≠ ⟨2, none, "echo new", none⟩ := by
  refine ⟨by decide, by decide, by decide⟩

/-- C8 (amended): for every store state and valid creation input (command
non-empty after trimming, alias — when supplied — syntactically valid and
unique), provided additionally that no existing record matches the new
id's numeral as a specifier (neither by id, so the counter is ahead of the
stored ids, nor by an alias spelling that numeral) and — when an alias is
supplied — no existing record matches the alias as a specifier (in
particular no existing id equals the alias's integer prefix), create
followed by resolving the new id returns the created record, and resolving
the alias does too. -/
theorem spec_c8_create_resolve (s : StoreState)
    (commandIn aliasIn commentIn idSpec : String)
    (hcmd : jsTrim commandIn ≠ "")
    (halias : jsTrim aliasIn ≠ "" →
      aliasShapeOk aliasIn = true ∧
      isAliasUnique (jsTrim aliasIn) s.records none = true)
    (hidspec : jsParseInt idSpec = some s.nextId)
    (hnoshadow : ∀ c ∈ s.records, specMatches idSpec c = false)
    (haliasnoshadow : jsTrim aliasIn ≠ "" →
      ∀ c ∈ s.records, specMatches (jsTrim aliasIn) c = false) :
    (∃ k, findCommandByIdOrAlias idSpec
        (addCommand s commandIn aliasIn commentIn).records =
      some (createdRecord s commandIn aliasIn commentIn, k)) ∧
    (jsTrim aliasIn ≠ "" → ∃ k, findCommandByIdOrAlias (jsTrim aliasIn)
        (addCommand s commandIn aliasIn commentIn).records =
      some (createdRecord s commandIn aliasIn commentIn, k)) := by
  have hmem : createdRecord s commandIn aliasIn commentIn ∈
      (addCommand s commandIn aliasIn commentIn).records := by
    simp only [addCommand]
    exact mem_sortById.mpr (List.mem_append.mpr
      (Or.inr (List.mem_singleton.mpr rfl)))
  constructor
  · have hmatch : (matchesId (jsParseInt idSpec)
        (createdRecord s commandIn aliasIn commentIn) ||
        matchesAlias (jsToLower idSpec)
          (createdRecord s commandIn aliasIn commentIn)) = true := by
      rw [hidspec]
      simp [matchesId, createdRecord]
    have huniq : ∀ c ∈ (addCommand s commandIn aliasIn commentIn).records,
        (matchesId (jsParseInt idSpec) c ||
         matchesAlias (jsToLower idSpec) c) = true →
        c = createdRecord s commandIn aliasIn commentIn := by
      intro c hc hcm
      have hm2 : c ∈ s.records ++ [createdRecord s commandIn aliasIn commentIn] := by
        simpa only [addCommand, mem_sortById] using hc
      rcases List.mem_append.mp hm2 with hold | hnew
      · exact absurd (show specMatches idSpec c = true from hcm)
          (by rw [hnoshadow c hold]; exact Bool.false_ne_true)
      · exact List.mem_singleton.mp hnew
    exact findAux_value (jsToLower idSpec) (jsParseInt idSpec) _ 0 _
      hmem hmatch huniq
  · intro hne
    have hmatch : (matchesId (jsParseInt (jsTrim aliasIn))
        (createdRecord s commandIn aliasIn commentIn) ||
        matchesAlias (jsToLower (jsTrim aliasIn))
          (createdRecord s commandIn aliasIn commentIn)) = true := by
      have h2 : matchesAlias (jsToLower (jsTrim aliasIn))
          (createdRecord s commandIn aliasIn commentIn) = true := by
        simp only [matchesAlias, createdRecord, if_neg hne]
        simp [bne_iff_ne, hne]
      rw [h2]
      simp
    have huniq : ∀ c ∈ (addCommand s commandIn aliasIn commentIn).records,
        (matchesId (jsParseInt (jsTrim aliasIn)) c ||
         matchesAlias (jsToLower (jsTrim aliasIn)) c) = true →
        c = createdRecord s commandIn aliasIn commentIn := by
      intro c hc hcm
      have hm2 : c ∈ s.records ++ [createdRecord s commandIn aliasIn commentIn] := by
        simpa only [addCommand, mem_sortById] using hc
      rcases List.mem_append.mp hm2 with hold | hnew
      · exact absurd (show specMatches (jsTrim aliasIn) c = true from hcm)
          (by rw [haliasnoshadow hne c hold]; exact Bool.false_ne_true)
      · exact List.mem_singleton.mp hnew
    exact findAux_value (jsToLower (jsTrim aliasIn))
      (jsParseInt (jsTrim aliasIn)) _ 0 _ hmem hmatch huniq

/-- Witness for the amended C8: creating `"pwd"` with alias `"nn"` in a
one-record store with counter 2 lets both `resolve("2")` and
`resolve("nn")` return the created record. -/
theorem spec_c8_witness :
    (∃ k, findCommandByIdOrAlias "2"
        (addCommand ⟨[⟨1, some "old", "echo hi", none⟩], 2⟩
          "pwd" "nn" "").records =
      some (createdRecord ⟨[⟨1, some "old", "echo hi", none⟩], 2⟩
        "pwd" "nn" "", k)) ∧
    (jsTrim "nn" ≠ "" → ∃ k, findCommandByIdOrAlias (jsTrim "nn")
        (addCommand ⟨[⟨1, some "old", "echo hi", none⟩], 2⟩
          "pwd" "nn" "").records =
      some (createdRecord ⟨[⟨1, some "old", "echo hi", none⟩], 2⟩
        "pwd" "nn" "", k)) :=
  spec_c8_create_resolve ⟨[⟨1, some "old", "echo hi", none⟩], 2⟩
    "pwd" "nn" "" "2" (by decide) (by decide) (by decide) (by decide)
    (by decide)
